import Mathlib

/-!
Shallow embedding of the RAG pipeline components of this repository:
the document chunker and embedding generator (src/day17/document_indexer.py),
the citation validator (src/day16/citation_manager.py), the cross-encoder
reranker (src/day19/reranker.py) and the FAISS/SQLite vector store
(src/day19/vector_store.py), together with theorems settling the spec
claims about them.
-/

set_option maxHeartbeats 2000000

namespace RagPipeline

/-! ## Generic helper: stable descending sort by a rational key

Python's `sorted(xs, key=..., reverse=True)` is a stable sort producing a
non-increasing key order; ties keep the original relative order.  We embed
it as a stable insertion sort: an element is inserted in front of the
first element whose key is not larger. -/

/-- Insert `x` into `l` in front of the first element whose key is `≤` the
key of `x` (stable descending insertion). -/
def insertD {α : Type} (key : α → ℚ) (x : α) : List α → List α
  | [] => [x]
  | y :: ys => if key y ≤ key x then x :: y :: ys else y :: insertD key x ys

/-- Stable descending insertion sort by a rational key: the embedding of
Python `sorted(xs, key=key, reverse=True)`. -/
def sortD {α : Type} (key : α → ℚ) : List α → List α
  | [] => []
  | x :: xs => insertD key x (sortD key xs)

theorem insertD_perm {α : Type} (key : α → ℚ) (x : α) (l : List α) :
    (insertD key x l).Perm (x :: l) := by
  induction l with
  | nil => simp [insertD]
  | cons y ys ih =>
    by_cases h : key y ≤ key x
    · simp [insertD, h]
    · simp only [insertD, h, if_false]
      exact ((ih.cons y).trans (List.Perm.swap x y ys))

theorem sortD_perm {α : Type} (key : α → ℚ) (l : List α) :
    (sortD key l).Perm l := by
  induction l with
  | nil => simp [sortD]
  | cons x xs ih => exact (insertD_perm key x (sortD key xs)).trans (ih.cons x)

theorem insertD_pairwise {α : Type} (key : α → ℚ) (x : α) (l : List α)
    (h : l.Pairwise (fun a b => key b ≤ key a)) :
    (insertD key x l).Pairwise (fun a b => key b ≤ key a) := by
  induction l with
  | nil => simp [insertD]
  | cons y ys ih =>
    by_cases hxy : key y ≤ key x
    · simp only [insertD, hxy, if_true]
      refine List.Pairwise.cons ?_ h
      intro b hb
      rcases List.mem_cons.mp hb with hb | hb
      · exact hb ▸ hxy
      · exact le_trans (List.rel_of_pairwise_cons h hb) hxy
    · simp only [insertD, hxy, if_false]
      refine List.Pairwise.cons ?_ (ih (List.Pairwise.of_cons h))
      intro b hb
      have hmem : b ∈ x :: ys := (insertD_perm key x ys).mem_iff.mp hb
      rcases List.mem_cons.mp hmem with hb2 | hb2
      · exact hb2 ▸ le_of_not_le hxy
      · exact List.rel_of_pairwise_cons h hb2

theorem sortD_pairwise {α : Type} (key : α → ℚ) (l : List α) :
    (sortD key l).Pairwise (fun a b => key b ≤ key a) := by
  induction l with
  | nil => simp [sortD]
  | cons x xs ih => exact insertD_pairwise key x (sortD key xs) ih

theorem sortD_length {α : Type} (key : α → ℚ) (l : List α) :
    (sortD key l).length = l.length :=
  (sortD_perm key l).length_eq

/-! ## DocumentChunker (src/day17/document_indexer.py)

`chunk_text` tokenizes the input with an external tokenizer (tiktoken),
then slides a window of `chunk_size` tokens advancing by
`chunk_size - overlap` each step.  The tokenizer's `encode`/`decode` are
external calls and enter the embedding as function parameters.  Python
integers are embedded as `ℤ`.  The `while start_idx < total_tokens` loop
has no guard for `overlap ≥ chunk_size`; we embed it with explicit fuel,
`none` marking fuel exhaustion (the loop not having terminated within the
given number of iterations). -/

structure Chunk where
  text : String
  chunk_index : ℤ
  start_token : ℤ
  end_token : ℤ
  token_count : ℤ
  total_tokens : ℤ
  chunk_id : String
deriving Repr, DecidableEq

/-- The `while start_idx < total_tokens` loop body of
`DocumentChunker.chunk_text` (src/day17/document_indexer.py lines 56-89).
`tokens[start_idx:end_idx]` is embedded for the `0 ≤ start_idx` case, the
only one reachable from the entry point `start_idx = 0` while the window
advances forward. -/
def chunkLoop (chunk_size overlap : ℤ) (tokens : List ℕ) (decode : List ℕ → String)
    (source_file : String) : ℕ → ℤ → ℤ → Option (List Chunk)
  | fuel, start_idx, chunk_idx =>
    if start_idx < (tokens.length : ℤ) then
      match fuel with
      | 0 => none
      | fuel + 1 =>
        let end_idx := min (start_idx + chunk_size) (tokens.length : ℤ)
        let chunk_tokens := (tokens.drop start_idx.toNat).take (end_idx - start_idx).toNat
        let ch : Chunk :=
          { text := decode chunk_tokens
            chunk_index := chunk_idx
            start_token := start_idx
            end_token := end_idx
            token_count := (chunk_tokens.length : ℤ)
            total_tokens := (tokens.length : ℤ)
            chunk_id := source_file ++ "_chunk_" ++ toString chunk_idx }
        match chunkLoop chunk_size overlap tokens decode source_file fuel
            (start_idx + (chunk_size - overlap)) (chunk_idx + 1) with
        | none => none
        | some rest => some (ch :: rest)
    else
      some []

/-- Python's whitespace test used by `str.strip()` (ASCII whitespace;
`\x0b` and `\x0c` are vertical tab and form feed). -/
def pyIsSpace (c : Char) : Bool :=
  c == ' ' || c == '\t' || c == '\n' || c == '\r' ||
    c == Char.ofNat 11 || c == Char.ofNat 12

/-- The method `DocumentChunker.chunk_text`: the `not text or not text.strip()` guard
returns zero chunks (`text.strip()` is empty exactly when every character
of `text` is whitespace); otherwise the sliding-window loop runs on the
encoded tokens.  The fuel `tokens.length + 1` covers every terminating run
(the window advances by at least one token per iteration when
`overlap < chunk_size`); `none` means the loop did not terminate. -/
def chunk_text (chunk_size overlap : ℤ) (encode : String → List ℕ)
    (decode : List ℕ → String) (source_file : String) (text : String) :
    Option (List Chunk) :=
  if text = "" ∨ text.toList.all pyIsSpace = true then some []
  else
    let tokens := encode text
    chunkLoop chunk_size overlap tokens decode source_file (tokens.length + 1) 0 0

/-- Loop invariant for `chunkLoop` under a valid configuration
`0 ≤ overlap < chunk_size`: with fuel at least `total - start` the loop
terminates and produces chunks whose ranges tile `[start, total)`. -/
theorem chunkLoop_spec (c o : ℤ) (tokens : List ℕ) (decode : List ℕ → String)
    (src : String) (h0 : 0 ≤ o) (h1 : o < c) :
    ∀ (fuel : ℕ) (start idx : ℤ), 0 ≤ start →
      (tokens.length : ℤ) ≤ start + fuel →
      ∃ chunks, chunkLoop c o tokens decode src fuel start idx = some chunks ∧
        (∀ ch ∈ chunks, ch.token_count = ch.end_token - ch.start_token ∧
          0 ≤ ch.start_token ∧ ch.start_token < ch.end_token ∧
          ch.end_token ≤ (tokens.length : ℤ)) ∧
        (∀ t : ℤ, start ≤ t → t < (tokens.length : ℤ) →
          ∃ ch, ch ∈ chunks ∧ ch.start_token ≤ t ∧ t < ch.end_token) ∧
        List.Chain' (fun a b => a.end_token - o ≤ b.start_token ∧
          b.start_token ≤ a.end_token) chunks ∧
        (match chunks with
         | [] => (tokens.length : ℤ) ≤ start
         | ch :: _ => ch.start_token = start ∧ start < (tokens.length : ℤ)) := by
  intro fuel
  induction fuel with
  | zero =>
    intro start idx hs hf
    have htot : (tokens.length : ℤ) ≤ start := by simpa using hf
    have hlt : ¬ start < (tokens.length : ℤ) := not_lt.mpr htot
    refine ⟨[], ?_, by simp, ?_, by simp, by simpa using htot⟩
    · simp [chunkLoop, hlt]
    · intro t ht1 ht2
      exact absurd (lt_of_le_of_lt ht1 ht2) (not_lt.mpr htot)
  | succ f ih =>
    intro start idx hs hf
    by_cases hlt : start < (tokens.length : ℤ)
    · -- one loop iteration
      have hstep : 1 ≤ c - o := by omega
      set total : ℤ := (tokens.length : ℤ) with htotal
      set endIdx : ℤ := min (start + c) total with hend
      have hse : start < endIdx := by
        have : start + 1 ≤ start + c := by omega
        exact lt_min_iff.mpr ⟨by omega, hlt⟩
      have het : endIdx ≤ total := min_le_right _ _
      -- the emitted chunk
      have hcount : (((tokens.drop start.toNat).take (endIdx - start).toNat).length : ℤ)
          = endIdx - start := by
        have hdlen : (tokens.drop start.toNat).length = tokens.length - start.toNat := by
          simp [List.length_drop]
        have h1' : (endIdx - start).toNat ≤ tokens.length - start.toNat := by omega
        simp [List.length_take, hdlen]
        omega
      -- recursive call
      have hs' : 0 ≤ start + (c - o) := by omega
      have hf' : total ≤ start + (c - o) + f := by
        have : total ≤ start + (f + 1) := by exact_mod_cast hf
        omega
      obtain ⟨rest, hrest, hrchunk, hrcov, hrchain, hrhead⟩ :=
        ih (start + (c - o)) (idx + 1) hs' hf'
      refine ⟨{ text := decode ((tokens.drop start.toNat).take (endIdx - start).toNat)
                chunk_index := idx
                start_token := start
                end_token := endIdx
                token_count :=
                  (((tokens.drop start.toNat).take (endIdx - start).toNat).length : ℤ)
                total_tokens := (tokens.length : ℤ)
                chunk_id := src ++ "_chunk_" ++ toString idx } :: rest, ?_, ?_, ?_, ?_, ?_⟩
      · rw [chunkLoop, if_pos hlt]
        rw [hrest]
      · -- per-chunk facts
        intro ch hch
        rcases List.mem_cons.mp hch with hch | hch
        · subst hch
          exact ⟨hcount, hs, hse, het⟩
        · exact hrchunk ch hch
      · -- coverage of [start, total)
        intro t ht1 ht2
        by_cases htE : t < endIdx
        · exact ⟨_, List.mem_cons_self _ _, ht1, htE⟩
        · push_neg at htE
          have hnext : start + (c - o) ≤ t := by
            by_contra hcon
            push_neg at hcon
            -- then endIdx = total, contradicting endIdx ≤ t < total
            have : total ≤ t := by
              have h2 : endIdx ≤ t := htE
              omega
            omega
          obtain ⟨ch, hch, ha, hb⟩ := hrcov t hnext ht2
          exact ⟨ch, List.mem_cons_of_mem _ hch, ha, hb⟩
      · -- chain of adjacent windows
        cases rest with
        | nil => simp
        | cons r rs =>
          obtain ⟨hrs, hrlt⟩ := hrhead
          refine List.chain'_cons.mpr ⟨⟨?_, ?_⟩, hrchain⟩
          · rw [hrs]
            show endIdx - o ≤ start + (c - o)
            have : endIdx ≤ start + c := min_le_left _ _
            omega
          · rw [hrs]
            show start + (c - o) ≤ endIdx
            exact le_min (by omega) (le_of_lt hrlt)
      · exact ⟨rfl, hlt⟩
    · -- loop exit
      refine ⟨[], ?_, by simp, ?_, by simp, by simpa using not_lt.mp hlt⟩
      · simp [chunkLoop, hlt]
      · intro t ht1 ht2
        exact absurd (lt_of_le_of_lt ht1 ht2) hlt

/-- C3: the code has no guard for `overlap ≥ chunk_size`: on the concrete
configuration `chunk_size = 512 = overlap` and a five-token text, the
sliding-window loop of `chunk_text` never terminates (it exhausts every
fuel bound because `start_idx` never advances), instead of failing with an
`InvalidConfiguration` error as the specification requires. -/
theorem chunk_text_overlap_ge_chunk_size_diverges :
    ∀ (fuel : ℕ) (idx : ℤ),
      chunkLoop 512 512 [10, 11, 12, 13, 14] (fun _ => "") "doc" fuel 0 idx = none := by
  intro fuel
  induction fuel with
  | zero =>
    intro idx
    rw [chunkLoop, if_pos (by norm_num)]
  | succ f ih =>
    intro idx
    rw [chunkLoop, if_pos (by norm_num)]
    have h0 : (0 : ℤ) + (512 - 512) = 0 := by norm_num
    simp only [h0, ih (idx + 1)]

/-- C5: for a valid configuration `0 ≤ overlap < chunk_size` and a text
that passes the emptiness guard and has a non-empty tokenization,
`chunk_text` terminates with a non-empty chunk list whose token ranges
tile `[0, total_tokens)` without gaps, each window starting at most
`overlap` tokens before the previous window's end, and each chunk's
`token_count` equals `end_token - start_token` (computed from the token
slice, not from re-tokenized text); empty or whitespace-only input yields
zero chunks, not an error. -/
theorem chunk_text_coverage (c o : ℤ) (encode : String → List ℕ)
    (decode : List ℕ → String) (src text : String)
    (h0 : 0 ≤ o) (h1 : o < c)
    (hws : ¬ text.toList.all pyIsSpace = true)
    (hne : encode text ≠ []) :
    ∃ chunks, chunk_text c o encode decode src text = some chunks ∧
      chunks ≠ [] ∧
      (∀ ch ∈ chunks, ch.token_count = ch.end_token - ch.start_token) ∧
      (∀ t : ℤ, 0 ≤ t → t < ((encode text).length : ℤ) →
        ∃ ch, ch ∈ chunks ∧ ch.start_token ≤ t ∧ t < ch.end_token) ∧
      List.Chain' (fun a b => a.end_token - o ≤ b.start_token ∧
        b.start_token ≤ a.end_token) chunks ∧
      (∀ t2 : String, t2.toList.all pyIsSpace = true →
        chunk_text c o encode decode src t2 = some []) := by
  have hguard : ¬ (text = "" ∨ text.toList.all pyIsSpace = true) := by
    rintro (h | h)
    · subst h; exact hws rfl
    · exact hws h
  have hlen : 0 < (encode text).length := List.length_pos.mpr hne
  obtain ⟨chunks, hloop, hchunk, hcov, hchain, hhead⟩ :=
    chunkLoop_spec c o (encode text) decode src h0 h1
      ((encode text).length + 1) 0 0 le_rfl (by push_cast; omega)
  refine ⟨chunks, ?_, ?_, ?_, ?_, hchain, ?_⟩
  · rw [chunk_text, if_neg hguard]
    exact hloop
  · cases chunks with
    | nil =>
      exfalso
      have : ((encode text).length : ℤ) ≤ 0 := hhead
      omega
    | cons a l => simp
  · intro ch hch
    exact (hchunk ch hch).1
  · intro t ht1 ht2
    exact hcov t ht1 ht2
  · intro t2 ht2
    rw [chunk_text, if_pos (Or.inr ht2)]

/-- Witness for `chunk_text_coverage` at a concrete configuration and
text. -/
theorem chunk_text_coverage_witness :
    ((0 : ℤ) ≤ 1 ∧ (1 : ℤ) < 4 ∧
      ¬ "hello".toList.all pyIsSpace = true ∧
      (fun _ : String => [10, 11, 12, 13, 14, 15]) "hello" ≠ []) ∧
    (∃ chunks, chunk_text 4 1 (fun _ => [10, 11, 12, 13, 14, 15])
        (fun _ => "x") "doc" "hello" = some chunks ∧
      chunks ≠ [] ∧
      (∀ ch ∈ chunks, ch.token_count = ch.end_token - ch.start_token) ∧
      (∀ t : ℤ, 0 ≤ t →
        t < (((fun _ : String => [10, 11, 12, 13, 14, 15]) "hello").length : ℤ) →
        ∃ ch, ch ∈ chunks ∧ ch.start_token ≤ t ∧ t < ch.end_token) ∧
      List.Chain' (fun a b => a.end_token - 1 ≤ b.start_token ∧
        b.start_token ≤ a.end_token) chunks ∧
      (∀ t2 : String, t2.toList.all pyIsSpace = true →
        chunk_text 4 1 (fun _ => [10, 11, 12, 13, 14, 15])
          (fun _ => "x") "doc" t2 = some [])) :=
  ⟨⟨by norm_num, by norm_num, by decide, by decide⟩,
    chunk_text_coverage 4 1 (fun _ => [10, 11, 12, 13, 14, 15])
      (fun _ => "x") "doc" "hello" (by norm_num) (by norm_num)
      (by decide) (by decide)⟩

/-! ## EmbeddingGenerator (src/day17/document_indexer.py)

`generate_embeddings` walks `range(0, len(texts), batch_size)` and calls
the OpenAI embeddings endpoint once per batch `texts[i:i+batch_size]`.
The upstream call is the parameter `api`; `api batch = none` models the
call raising an exception, which the `except` block converts into
`[None] * len(batch)`.  Python's `range` raises `ValueError` when its step
is zero, so the embedding returns `Except`. -/

/-- One batch block: `[item.embedding for item in response.data]` on success, or
`[None] * len(batch)` when the upstream call raises. -/
def blockOf {E : Type} (api : List String → Option (List E))
    (batch : List String) : List (Option E) :=
  match api batch with
  | some embs => embs.map some
  | none => List.replicate batch.length none

/-- Python `range(0, n, step)` for `n : ℕ`: `ValueError` for step zero,
empty for a negative step, otherwise the multiples of `step` below `n`. -/
def pyRange (n : ℕ) (step : ℤ) : Except String (List ℕ) :=
  if step = 0 then Except.error "range() arg 3 must not be zero"
  else if step < 0 then Except.ok []
  else Except.ok ((List.range ((n + step.toNat - 1) / step.toNat)).map (· * step.toNat))

/-- The method `EmbeddingGenerator.generate_embeddings` (src/day17/document_indexer.py
lines 111-148). -/
def generate_embeddings {E : Type} (api : List String → Option (List E))
    (texts : List String) (batch_size : ℤ) : Except String (List (Option E)) :=
  if texts = [] then Except.ok []
  else
    match pyRange texts.length batch_size with
    | Except.error e => Except.error e
    | Except.ok idxs =>
      Except.ok (idxs.flatMap (fun i => blockOf api ((texts.drop i).take batch_size.toNat)))

/-- Recursive reformulation of the batch loop: process the first
`bs1 + 1` texts, then the rest.  (`bs1` is `batch_size - 1`, making the
recursion structurally decreasing.) -/
def gerec {E : Type} (api : List String → Option (List E)) :
    List String → ℕ → List (Option E)
  | [], _ => []
  | t :: ts, bs1 =>
    blockOf api ((t :: ts).take (bs1 + 1)) ++ gerec api (ts.drop bs1) bs1
termination_by texts _ => texts.length
decreasing_by
  simp only [List.length_cons]
  have := List.length_drop bs1 ts
  omega

theorem blockOf_nil {E : Type} (api : List String → Option (List E))
    (hapi : ∀ b r, api b = some r → r.length = b.length) :
    blockOf api [] = [] := by
  unfold blockOf
  cases h : api [] with
  | none => simp
  | some r =>
    have := hapi [] r h
    simp at this
    simp [this]

theorem blockOf_length {E : Type} (api : List String → Option (List E))
    (hapi : ∀ b r, api b = some r → r.length = b.length) (batch : List String) :
    (blockOf api batch).length = batch.length := by
  unfold blockOf
  cases h : api batch with
  | none => simp
  | some r => simp [hapi batch r h]

theorem gerec_nil {E : Type} (api : List String → Option (List E)) (s1 : ℕ) :
    gerec api [] s1 = [] := by
  simp [gerec]

theorem gerec_cons {E : Type} (api : List String → Option (List E))
    (t : String) (ts : List String) (s1 : ℕ) :
    gerec api (t :: ts) s1
      = blockOf api ((t :: ts).take (s1 + 1)) ++ gerec api (ts.drop s1) s1 := by
  simp [gerec]

/-- The batch loop unrolled at a step of `s` (`s ≥ 1`): with `s = s1 + 1`,
the head batch is `take s` and the tail continues on `drop s`. -/
theorem gerec_cons_s {E : Type} (api : List String → Option (List E))
    (t : String) (ts : List String) (s : ℕ) (hs : 1 ≤ s) :
    gerec api (t :: ts) (s - 1)
      = blockOf api ((t :: ts).take s) ++ gerec api ((t :: ts).drop s) (s - 1) := by
  obtain ⟨s1, rfl⟩ : ∃ s1, s = s1 + 1 := ⟨s - 1, by omega⟩
  simp only [Nat.add_sub_cancel]
  rw [gerec_cons, List.drop_succ_cons]

theorem flatMap_range_eq_gerec {E : Type} (api : List String → Option (List E))
    (s : ℕ) (hs : 1 ≤ s)
    (hapi : ∀ b r, api b = some r → r.length = b.length) :
    ∀ (m : ℕ) (texts : List String), texts.length ≤ m * s →
      ((List.range m).map (· * s)).flatMap
          (fun i => blockOf api ((texts.drop i).take s))
        = gerec api texts (s - 1) := by
  intro m
  induction m with
  | zero =>
    intro texts h
    have hnil : texts = [] := List.eq_nil_of_length_eq_zero (by omega)
    subst hnil
    simp [gerec_nil]
  | succ m ih =>
    intro texts h
    rw [List.range_succ_eq_map]
    simp only [List.map_cons, List.flatMap_cons, List.map_map]
    rw [List.flatMap_map]
    simp only [Function.comp]
    cases texts with
    | nil =>
      rw [gerec_nil]
      simp [blockOf_nil api hapi]
    | cons t ts =>
      have hkey : ∀ a : ℕ,
          blockOf api (((t :: ts).drop (Nat.succ a * s)).take s)
            = blockOf api ((((t :: ts).drop s).drop (a * s)).take s) := by
        intro a
        rw [List.drop_drop, Nat.succ_mul, Nat.add_comm (a * s) s]
      simp only [hkey]
      have hlen : ((t :: ts).drop s).length ≤ m * s := by
        have hd := List.length_drop s (t :: ts)
        have hms : (m + 1) * s = m * s + s := by ring
        simp only [List.length_cons] at h hd ⊢
        omega
      have ihspec := ih ((t :: ts).drop s) hlen
      rw [List.flatMap_map] at ihspec
      rw [ihspec]
      rw [Nat.zero_mul, List.drop_zero, gerec_cons_s api t ts s hs]

theorem gerec_length {E : Type} (api : List String → Option (List E))
    (hapi : ∀ b r, api b = some r → r.length = b.length) :
    ∀ (n : ℕ) (texts : List String), texts.length ≤ n → ∀ s1 : ℕ,
      (gerec api texts s1).length = texts.length := by
  intro n
  induction n with
  | zero =>
    intro texts h s1
    have hnil : texts = [] := List.eq_nil_of_length_eq_zero (by omega)
    subst hnil
    rw [gerec_nil]
    rfl
  | succ n ih =>
    intro texts h s1
    cases texts with
    | nil =>
      rw [gerec_nil]
      rfl
    | cons t ts =>
      rw [gerec_cons]
      rw [List.length_append, blockOf_length api hapi,
        ih (ts.drop s1) (by have := List.length_drop s1 ts; simp at h ⊢; omega) s1]
      simp [List.length_take, List.length_drop]
      omega

theorem gerec_slice {E : Type} (api : List String → Option (List E))
    (s : ℕ) (hs : 1 ≤ s)
    (hapi : ∀ b r, api b = some r → r.length = b.length) :
    ∀ (n : ℕ) (texts : List String), texts.length ≤ n → ∀ k : ℕ,
      ((gerec api texts (s - 1)).drop (k * s)).take s
        = blockOf api ((texts.drop (k * s)).take s) := by
  intro n
  induction n with
  | zero =>
    intro texts h k
    have hnil : texts = [] := List.eq_nil_of_length_eq_zero (by omega)
    subst hnil
    simp [gerec_nil, blockOf_nil api hapi]
  | succ n ih =>
    intro texts h k
    cases texts with
    | nil => simp [gerec_nil, blockOf_nil api hapi]
    | cons t ts =>
      rw [gerec_cons_s api t ts s hs]
      have hblen : (blockOf api ((t :: ts).take s)).length = min s (t :: ts).length := by
        rw [blockOf_length api hapi, List.length_take]
      cases k with
      | zero =>
        simp only [Nat.zero_mul, List.drop_zero]
        rw [List.take_append_eq_append_take]
        by_cases hsn : s ≤ (t :: ts).length
        · have hb : (blockOf api ((t :: ts).take s)).length = s := by omega
          rw [List.take_of_length_le (le_of_eq hb), hb]
          simp
        · push_neg at hsn
          have hb : (blockOf api ((t :: ts).take s)).length = (t :: ts).length := by omega
          have hrest : (t :: ts).drop s = [] :=
            List.drop_eq_nil_of_le (le_of_lt hsn)
          have hble : (blockOf api ((t :: ts).take s)).length ≤ s := by omega
          rw [hrest, gerec_nil, List.take_of_length_le hble]
          simp
      | succ k =>
        rw [List.drop_append_eq_append_drop]
        have hdb : (blockOf api ((t :: ts).take s)).drop ((k + 1) * s) = [] := by
          apply List.drop_eq_nil_of_le
          have : s ≤ (k + 1) * s := by nlinarith
          omega
        rw [hdb, List.nil_append]
        by_cases hsn : s ≤ (t :: ts).length
        · have hb : (blockOf api ((t :: ts).take s)).length = s := by omega
          rw [hb, show (k + 1) * s - s = k * s from by ring_nf; omega]
          have hlen : ((t :: ts).drop s).length ≤ n := by
            have hdp := List.length_drop s (t :: ts)
            simp only [List.length_cons] at h hdp ⊢
            omega
          rw [ih ((t :: ts).drop s) hlen k, List.drop_drop]
          congr 2
          rw [Nat.succ_mul, Nat.add_comm (k * s) s]
        · push_neg at hsn
          have hrest : (t :: ts).drop s = [] :=
            List.drop_eq_nil_of_le (le_of_lt hsn)
          rw [hrest]
          have hrdrop : (t :: ts).drop ((k + 1) * s) = [] := by
            apply List.drop_eq_nil_of_le
            have : s ≤ (k + 1) * s := by nlinarith
            omega
          simp [gerec_nil, hrdrop, blockOf_nil api hapi]

/-- C9 (amended to `batch_size ≥ 1`): when every successful upstream call
returns one embedding per input text, `generate_embeddings` never raises:
it returns one entry per input text, and each batch slice of the output is
the upstream result of that batch — `None` markers for every text of a
failing batch, the real embeddings for the others, so remaining batches
are still processed. -/
theorem generate_embeddings_partial_success {E : Type}
    (api : List String → Option (List E)) (texts : List String) (bs : ℤ)
    (hbs : 1 ≤ bs)
    (hapi : ∀ b r, api b = some r → r.length = b.length) :
    ∃ out, generate_embeddings api texts bs = Except.ok out ∧
      out.length = texts.length ∧
      ∀ k : ℕ, (out.drop (k * bs.toNat)).take bs.toNat
        = blockOf api ((texts.drop (k * bs.toNat)).take bs.toNat) := by
  have hs : 1 ≤ bs.toNat := by omega
  by_cases htx : texts = []
  · subst htx
    refine ⟨[], ?_, rfl, ?_⟩
    · rw [generate_embeddings]
      simp
    · intro k
      simp [blockOf_nil api hapi]
  · have hstep0 : ¬ bs = 0 := by omega
    have hstepneg : ¬ bs < 0 := by omega
    have hpr : pyRange texts.length bs
        = Except.ok ((List.range ((texts.length + bs.toNat - 1) / bs.toNat)).map
            (· * bs.toNat)) := by
      rw [pyRange, if_neg hstep0, if_neg hstepneg]
    have hcov : texts.length ≤ ((texts.length + bs.toNat - 1) / bs.toNat) * bs.toNat := by
      have hdm := Nat.div_add_mod (texts.length + bs.toNat - 1) bs.toNat
      have hmlt : (texts.length + bs.toNat - 1) % bs.toNat < bs.toNat :=
        Nat.mod_lt _ (by omega)
      have hqs : ((texts.length + bs.toNat - 1) / bs.toNat) * bs.toNat
          = bs.toNat * ((texts.length + bs.toNat - 1) / bs.toNat) := Nat.mul_comm _ _
      omega
    refine ⟨gerec api texts (bs.toNat - 1), ?_, ?_, ?_⟩
    · simp only [generate_embeddings, if_neg htx, hpr]
      rw [flatMap_range_eq_gerec api bs.toNat hs hapi _ texts hcov]
    · exact gerec_length api hapi texts.length texts le_rfl (bs.toNat - 1)
    · intro k
      exact gerec_slice api bs.toNat hs hapi texts.length texts le_rfl k

/-- Witness for `generate_embeddings_partial_success`: three texts, batch
size two, an upstream call that succeeds on full batches of two and raises
on the final short batch. -/
theorem generate_embeddings_partial_success_witness :
    (1 ≤ (2 : ℤ)) ∧
    (∀ b r, (fun batch : List String => if batch.length = 2
        then some (List.replicate batch.length (0 : ℚ)) else none) b = some r →
      r.length = b.length) ∧
    (∃ out, generate_embeddings
        (fun batch : List String => if batch.length = 2
          then some (List.replicate batch.length (0 : ℚ)) else none)
        ["a", "b", "c"] 2 = Except.ok out ∧
      out.length = (["a", "b", "c"] : List String).length ∧
      ∀ k : ℕ, (out.drop (k * (2 : ℤ).toNat)).take (2 : ℤ).toNat
        = blockOf (fun batch : List String => if batch.length = 2
            then some (List.replicate batch.length (0 : ℚ)) else none)
          (((["a", "b", "c"] : List String).drop (k * (2 : ℤ).toNat)).take
            (2 : ℤ).toNat)) := by
  have hapi : ∀ b r, (fun batch : List String => if batch.length = 2
      then some (List.replicate batch.length (0 : ℚ)) else none) b = some r →
      r.length = b.length := by
    intro b r h
    simp only at h
    by_cases hb : b.length = 2
    · rw [if_pos hb] at h
      injection h with h2
      rw [← h2]
      simp
    · rw [if_neg hb] at h
      exact Option.noConfusion h
  exact ⟨by norm_num, hapi,
    generate_embeddings_partial_success _ ["a", "b", "c"] 2 (by norm_num) hapi⟩

/-- C9 counterexample to the unrestricted claim: with `batch_size = 0` the
loop header `range(0, len(texts), 0)` raises `ValueError` for a non-empty
input, so an exception does escape to the caller. -/
theorem generate_embeddings_zero_batch_size_raises :
    generate_embeddings (fun _ : List String => (none : Option (List ℚ))) ["a"] 0
      = Except.error "range() arg 3 must not be zero" := by
  rfl

/-! ## CitationManager (src/day16/citation_manager.py)

`validate_citations` extracts every occurrence of the pattern `\[(\d+)\]`
from the response text, deduplicates into a set of integers, and splits it
against the expected set `{1, ..., num_sources}`.  The regex scan is
embedded as a left-to-right character scanner: the state `some ds` means
the scanner sits right after a `[` having read the digit run `ds`; a
failed match resumes scanning at the character that broke it (no earlier
character can start a new match, since a match starts with `[`). -/

/-- Python `int(...)` on a run of decimal digit characters. -/
def natOfDigits (ds : List Char) : ℕ :=
  ds.foldl (fun acc d => 10 * acc + (d.toNat - '0'.toNat)) 0

/-- Left-to-right scan for the regex `\[(\d+)\]`, collecting the matched
numbers in order of occurrence. -/
def findCitations : List Char → Option (List Char) → List ℕ
  | [], _ => []
  | c :: rest, none =>
    if c = '[' then findCitations rest (some [])
    else findCitations rest none
  | c :: rest, some ds =>
    if c.isDigit then findCitations rest (some (ds ++ [c]))
    else if c = ']' then
      if ds = [] then findCitations rest none
      else natOfDigits ds :: findCitations rest none
    else if c = '[' then findCitations rest (some [])
    else findCitations rest none

/-- The result dictionary of `CitationManager.validate_citations`; the
`sorted(list(...))` fields are modelled as the underlying finite sets. -/
structure ValidationResult where
  is_valid : Bool
  has_citations : Bool
  all_cited : Bool
  no_invalid : Bool
  citation_rate : ℚ
  num_sources : ℕ
  num_cited : ℕ
  num_missing : ℕ
  num_invalid : ℕ
  cited : Finset ℕ
  missing : Finset ℕ
  invalid : Finset ℕ
deriving DecidableEq

/-- The method `CitationManager.validate_citations` (src/day16/citation_manager.py
lines 131-198). -/
def validate_citations (response_text : String) (num_sources : ℕ)
    (strict : Bool) : ValidationResult :=
  let found := (findCitations response_text.toList none).toFinset
  let expected := Finset.Icc 1 num_sources
  let cited := found ∩ expected
  let missing := expected \ found
  let invalid := found \ expected
  let has_citations := decide (0 < cited.card)
  let all_cited := decide (missing.card = 0)
  let no_invalid := decide (invalid.card = 0)
  let citation_rate : ℚ :=
    if 0 < num_sources then (cited.card : ℚ) / num_sources else 0
  let is_valid := if strict then all_cited && no_invalid
    else has_citations && no_invalid
  { is_valid := is_valid
    has_citations := has_citations
    all_cited := all_cited
    no_invalid := no_invalid
    citation_rate := citation_rate
    num_sources := num_sources
    num_cited := cited.card
    num_missing := missing.card
    num_invalid := invalid.card
    cited := cited
    missing := missing
    invalid := invalid }

/-- C8: `validate_citations` partitions the bracketed numbers found in the
answer into `cited` (in `1..n` and present), `missing` (in `1..n`, absent)
and `invalid` (present, outside `1..n`), computes
`citation_rate = |cited| / n`, and `is_valid` is "at least one citation
and no invalid one" in lenient mode and "all `n` cited and no invalid one"
in strict mode; on an answer containing exactly `[1]` and `[3]` with
`n = 3` it returns `cited = {1,3}`, `missing = {2}`, `invalid = {}` and
`citation_rate = 2/3`. -/
theorem validate_citations_spec (text : String) (n : ℕ) (strict : Bool)
    (hn : 1 ≤ n) :
    ((∀ k, k ∈ (validate_citations text n strict).cited ↔
        k ∈ (findCitations text.toList none).toFinset ∧ 1 ≤ k ∧ k ≤ n) ∧
      (∀ k, k ∈ (validate_citations text n strict).missing ↔
        (1 ≤ k ∧ k ≤ n) ∧ k ∉ (findCitations text.toList none).toFinset) ∧
      (∀ k, k ∈ (validate_citations text n strict).invalid ↔
        k ∈ (findCitations text.toList none).toFinset ∧ ¬ (1 ≤ k ∧ k ≤ n)) ∧
      (validate_citations text n strict).citation_rate
        = ((validate_citations text n strict).cited.card : ℚ) / n ∧
      (strict = false → ((validate_citations text n strict).is_valid = true ↔
        (validate_citations text n strict).cited.Nonempty ∧
          (validate_citations text n strict).invalid = ∅)) ∧
      (strict = true → ((validate_citations text n strict).is_valid = true ↔
        (validate_citations text n strict).cited = Finset.Icc 1 n ∧
          (validate_citations text n strict).invalid = ∅))) ∧
    ((validate_citations "According to [1], see also [3]." 3 false).cited
        = ({1, 3} : Finset ℕ) ∧
      (validate_citations "According to [1], see also [3]." 3 false).missing
        = ({2} : Finset ℕ) ∧
      (validate_citations "According to [1], see also [3]." 3 false).invalid
        = (∅ : Finset ℕ) ∧
      (validate_citations "According to [1], see also [3]." 3 false).citation_rate
        = 2 / 3 ∧
      (validate_citations "According to [1], see also [3]." 3 false).is_valid
        = true) := by
  constructor
  · simp only [validate_citations]
    refine ⟨?_, ?_, ?_, ?_, ?_, ?_⟩
    · intro k
      simp [Finset.mem_inter, Finset.mem_Icc]
    · intro k
      simp [Finset.mem_sdiff, Finset.mem_Icc]
    · intro k
      simp [Finset.mem_sdiff, Finset.mem_Icc]
    · rw [if_pos (by omega : 0 < n)]
    · intro hstrict
      subst hstrict
      rw [if_neg (by simp)]
      simp only [Bool.and_eq_true, decide_eq_true_eq]
      rw [Finset.card_pos, Finset.card_eq_zero]
    · intro hstrict
      subst hstrict
      rw [if_pos rfl]
      simp only [Bool.and_eq_true, decide_eq_true_eq]
      rw [Finset.card_eq_zero, Finset.card_eq_zero]
      constructor
      · rintro ⟨h1, h2⟩
        refine ⟨?_, h2⟩
        have hsub : Finset.Icc 1 n ⊆ (findCitations text.toList none).toFinset :=
          (Finset.sdiff_eq_empty_iff_subset).mp h1
        exact Finset.inter_eq_right.mpr hsub
      · rintro ⟨h1, h2⟩
        refine ⟨?_, h2⟩
        apply Finset.sdiff_eq_empty_iff_subset.mpr
        intro k hk
        have : k ∈ (findCitations text.toList none).toFinset ∩ Finset.Icc 1 n := by
          rw [h1]; exact hk
        exact (Finset.mem_inter.mp this).1
  · have hc : ((findCitations "According to [1], see also [3].".toList none).toFinset
        ∩ Finset.Icc 1 3).card = 2 := by decide
    refine ⟨by decide, by decide, by decide, ?_, by decide⟩
    simp only [validate_citations]
    rw [if_pos (by norm_num : (0 : ℕ) < 3), hc]
    norm_num

/-- Witness for `validate_citations_spec` at `n = 3`, lenient mode, on the
answer citing exactly `[1]` and `[3]`. -/
theorem validate_citations_spec_witness :
    1 ≤ 3 ∧
    (validate_citations "According to [1], see also [3]." 3 false).cited
        = ({1, 3} : Finset ℕ) ∧
    (validate_citations "According to [1], see also [3]." 3 false).citation_rate
        = 2 / 3 ∧
    (validate_citations "According to [1], see also [3]." 3 false).is_valid = true := by
  have h := validate_citations_spec "According to [1], see also [3]." 3 false (by norm_num)
  exact ⟨by norm_num, h.2.1, h.2.2.2.2.1, h.2.2.2.2.2⟩

/-! ## DocumentReranker (src/day19/reranker.py)

`rerank` builds `[query, text]` pairs for every document, scores them with
the cross-encoder (the parameter `score`; the claims concern the path
where `model.predict` succeeds), annotates each document dict in place
with `rerank_score` and — when absent — `original_rank`, sorts all
documents by `rerank_score` descending (Python's stable `sorted`),
annotates `reranked_rank` and `rank_change`, and returns the top-k slice.

Python dicts are mutated in place.  `rerank` below is the value-level
embedding (the contents of the returned list); `rerankRef` further down
models the heap: documents live in a store `List Doc` and the candidate
list holds addresses into it. -/

structure Doc where
  text : Option String
  content : Option String
  rerank_score : Option ℚ
  original_rank : Option ℤ
  reranked_rank : Option ℤ
  rank_change : Option ℤ
deriving Repr, DecidableEq

/-- The pair text `doc.get('text') or doc.get('content', '')`. -/
def getText (d : Doc) : String :=
  match d.text with
  | some t => if t = "" then d.content.getD "" else t
  | none => d.content.getD ""

/-- Sort key `lambda x: x['rerank_score']`. -/
def rerankKey (d : Doc) : ℚ := d.rerank_score.getD 0

/-- The method `DocumentReranker.rerank` (src/day19/reranker.py lines 41-106),
success path of the cross-encoder call. -/
def rerank (score : String → String → ℚ) (query : String)
    (documents : List Doc) (top_k : ℕ) : List Doc :=
  if documents = [] then []
  else
    let withScores := (List.enumFrom 1 documents).map (fun p =>
      { p.2 with
          rerank_score := some (score query (getText p.2))
          original_rank := match p.2.original_rank with
            | some r => some r
            | none => some (p.1 : ℤ) })
    let reranked := sortD rerankKey withScores
    let final := (List.enumFrom 1 reranked).map (fun p =>
      { p.2 with
          reranked_rank := some (p.1 : ℤ)
          rank_change := some (p.2.original_rank.getD 0 - (p.1 : ℤ)) })
    final.take top_k

theorem pairwise_enumFrom_snd {α : Type} (P : α → α → Prop) :
    ∀ (l : List α) (n : ℕ), l.Pairwise P →
      (List.enumFrom n l).Pairwise (fun p q => P p.2 q.2) := by
  intro l
  induction l with
  | nil =>
    intro n h
    simp
  | cons x xs ih =>
    intro n h
    rw [List.enumFrom_cons]
    refine List.Pairwise.cons ?_ (ih (n + 1) (List.Pairwise.of_cons h))
    intro q hq
    have hq2 : q.2 ∈ xs := by
      have hm : q.2 ∈ List.map Prod.snd (List.enumFrom (n + 1) xs) :=
        List.mem_map_of_mem _ hq
      rwa [List.enumFrom_map_snd] at hm
    exact List.rel_of_pairwise_cons h hq2

/-- C7 (amended: `original_rank` is the 1-based input position only for
candidates that do not already carry an `original_rank` field): `rerank`
scores and sorts the entire candidate set and only then truncates to
`top_k`; no dropped candidate has a cross-encoder score above that of a
retained one; and every returned item carries
`rank_change = original_rank - reranked_rank` with `original_rank` its
1-based input position and `reranked_rank` its 1-based position in the
full descending-score order. -/
theorem rerank_spec (score : String → String → ℚ) (query : String)
    (documents : List Doc) (top_k : ℕ)
    (hfresh : ∀ d ∈ documents, d.original_rank = none) :
    ∃ R : List Doc,
      rerank score query documents top_k = R.take top_k ∧
      R.length = documents.length ∧
      (∀ a ∈ R.drop top_k, ∀ b ∈ R.take top_k, rerankKey a ≤ rerankKey b) ∧
      (∀ j, ∀ hj : j < R.length, ∃ i, ∃ hi : i < documents.length,
        R[j] = { documents[i] with
          rerank_score := some (score query (getText documents[i]))
          original_rank := some ((i + 1 : ℕ) : ℤ)
          reranked_rank := some ((j + 1 : ℕ) : ℤ)
          rank_change := some (((i + 1 : ℕ) : ℤ) - ((j + 1 : ℕ) : ℤ)) }) := by
  by_cases hne : documents = []
  · subst hne
    refine ⟨[], by simp [rerank], rfl, by simp, ?_⟩
    intro j hj
    simp at hj
  · set withScores := (List.enumFrom 1 documents).map (fun p =>
      { p.2 with
          rerank_score := some (score query (getText p.2))
          original_rank := match p.2.original_rank with
            | some r => some r
            | none => some ((p.1 : ℕ) : ℤ) }) with hws
    set reranked := sortD rerankKey withScores with hrk
    set final := (List.enumFrom 1 reranked).map (fun p =>
      { p.2 with
          reranked_rank := some ((p.1 : ℕ) : ℤ)
          rank_change := some (p.2.original_rank.getD 0 - ((p.1 : ℕ) : ℤ)) }) with hfin
    have hlen_ws : withScores.length = documents.length := by
      rw [hws, List.length_map, List.enumFrom_length]
    have hlen_rk : reranked.length = documents.length := by
      rw [hrk, sortD_length, hlen_ws]
    have hlen_fin : final.length = documents.length := by
      rw [hfin, List.length_map, List.enumFrom_length, hlen_rk]
    refine ⟨final, ?_, hlen_fin, ?_, ?_⟩
    · simp only [rerank, if_neg hne]
    · -- dropped candidates score no higher than retained ones
      have hpw_sorted : reranked.Pairwise (fun a b => rerankKey b ≤ rerankKey a) :=
        hrk ▸ sortD_pairwise rerankKey withScores
      have hpw_final : final.Pairwise (fun a b => rerankKey b ≤ rerankKey a) := by
        rw [hfin, List.pairwise_map]
        exact (pairwise_enumFrom_snd _ reranked 1 hpw_sorted).imp (fun h => h)
      intro a ha b hb
      rw [← List.take_append_drop top_k final] at hpw_final
      exact (List.pairwise_append.mp hpw_final).2.2 b hb a ha
    · -- positional characterization of every entry of the full reranked list
      intro j hj
      have hj_rk : j < reranked.length := by omega
      have hj_en : j < (List.enumFrom 1 reranked).length := by
        rw [List.enumFrom_length]; omega
      have hfj : final[j] = { reranked[j] with
          reranked_rank := some (((1 + j : ℕ)) : ℤ)
          rank_change := some ((reranked[j]).original_rank.getD 0 - (((1 + j : ℕ)) : ℤ)) } := by
        simp only [hfin, List.getElem_map, List.getElem_enumFrom]
      have hmem : reranked[j] ∈ withScores := by
        have hm : reranked[j] ∈ reranked := List.getElem_mem hj_rk
        exact (sortD_perm rerankKey withScores).mem_iff.mp (hrk ▸ hm)
      obtain ⟨i, hi_ws, hwsi⟩ := List.mem_iff_getElem.mp hmem
      have hi : i < documents.length := by omega
      have hwsv : withScores[i] = { documents[i] with
          rerank_score := some (score query (getText documents[i]))
          original_rank := some (((1 + i : ℕ)) : ℤ) } := by
        have hdn : documents[i].original_rank = none :=
          hfresh documents[i] (List.getElem_mem hi)
        simp only [hws, List.getElem_map, List.getElem_enumFrom, hdn]
      refine ⟨i, hi, ?_⟩
      rw [hfj, ← hwsi, hwsv]
      have h1 : ((1 + j : ℕ) : ℤ) = ((j + 1 : ℕ) : ℤ) := by push_cast; ring
      have h2 : ((1 + i : ℕ) : ℤ) = ((i + 1 : ℕ) : ℤ) := by push_cast; ring
      simp only [h1, h2]
      rfl

/-- A candidate document carrying only a text payload (no annotation
fields yet), as produced by the vector store search. -/
def docFresh (t : String) : Doc where
  text := some t
  content := none
  rerank_score := none
  original_rank := none
  reranked_rank := none
  rank_change := none

/-- A candidate document that already carries an `original_rank` field,
as happens when the same dict is passed through `rerank` twice. -/
def docPreRanked (t : String) (r : ℤ) : Doc where
  text := some t
  content := none
  rerank_score := none
  original_rank := some r
  reranked_rank := none
  rank_change := none

/-- Witness for `rerank_spec`: two fresh candidate documents, `top_k = 1`. -/
theorem rerank_spec_witness :
    (∀ d ∈ [docFresh "a", docFresh "b"], d.original_rank = none) ∧
    (∃ R : List Doc,
      rerank (fun _ t => if t = "b" then (2 : ℚ) else 1) "q"
          [docFresh "a", docFresh "b"] 1 = R.take 1 ∧
      R.length = ([docFresh "a", docFresh "b"] : List Doc).length ∧
      (∀ a ∈ R.drop 1, ∀ b ∈ R.take 1, rerankKey a ≤ rerankKey b) ∧
      (∀ j, ∀ hj : j < R.length, ∃ i,
        ∃ hi : i < ([docFresh "a", docFresh "b"] : List Doc).length,
        R[j] = { ([docFresh "a", docFresh "b"] : List Doc)[i] with
          rerank_score := some ((fun _ t => if t = "b" then (2 : ℚ) else 1) "q"
            (getText ([docFresh "a", docFresh "b"] : List Doc)[i]))
          original_rank := some ((i + 1 : ℕ) : ℤ)
          reranked_rank := some ((j + 1 : ℕ) : ℤ)
          rank_change := some (((i + 1 : ℕ) : ℤ) - ((j + 1 : ℕ) : ℤ)) })) :=
  ⟨by decide, rerank_spec (fun _ t => if t = "b" then (2 : ℚ) else 1) "q" _ 1 (by decide)⟩

/-- C7 counterexample to the claim as stated: a candidate that already
carries `original_rank = 7` keeps it, so the returned `rank_change` is
`7 - 1 = 6` and not `original input position - reranked position = 0`. -/
theorem rerank_rank_change_counterexample :
    (rerank (fun _ _ => (0 : ℚ)) "q" [docPreRanked "t" 7] 5).map
      (fun d => d.rank_change) = [some 6] ∧ ((6 : ℤ) ≠ 1 - 1) :=
  ⟨by decide, by decide⟩

/-! ### Heap model of `rerank` (claim about in-place mutation)

Python dicts are heap objects: the caller's `documents` list holds
references, and `rerank` writes `rerank_score`, `original_rank`,
`reranked_rank` and `rank_change` through those references.  We model the
heap as a `List Doc` and the candidate list as a list of addresses into
it; `rerankRef` returns the updated heap together with the returned
addresses (the returned list aliases the caller's elements). -/

/-- Fold a sequence of keyed in-place updates over the heap: for each
`(rank, addr)` pair, rewrite the document at `addr` with `f rank doc`.
(The `none` branch is unreachable for valid addresses.) -/
def updFold (f : ℕ → Doc → Doc) : List Doc → List (ℕ × ℕ) → List Doc
  | h, [] => h
  | h, p :: ps =>
    updFold f (match h.get? p.2 with
      | none => h
      | some d => h.set p.2 (f p.1 d)) ps

theorem updFold_length (f : ℕ → Doc → Doc) :
    ∀ (ps : List (ℕ × ℕ)) (h : List Doc), (updFold f h ps).length = h.length := by
  intro ps
  induction ps with
  | nil => intro h; rfl
  | cons p ps ih =>
    intro h
    rw [updFold]
    cases hg : h.get? p.2 with
    | none => simpa [hg] using ih h
    | some d =>
      simp only [hg]
      rw [ih (h.set p.2 (f p.1 d)), List.length_set]

theorem updFold_frame (f : ℕ → Doc → Doc) :
    ∀ (ps : List (ℕ × ℕ)) (h : List Doc) (a : ℕ), (∀ p ∈ ps, p.2 ≠ a) →
      (updFold f h ps).get? a = h.get? a := by
  intro ps
  induction ps with
  | nil => intro h a _; rfl
  | cons p ps ih =>
    intro h a hne
    rw [updFold]
    cases hg : h.get? p.2 with
    | none => exact ih h a (fun q hq => hne q (List.mem_cons_of_mem _ hq))
    | some d =>
      simp only [hg]
      rw [ih _ a (fun q hq => hne q (List.mem_cons_of_mem _ hq)),
        List.get?_set_ne _ _ (hne p (List.mem_cons_self _ _))]

theorem updFold_write (f : ℕ → Doc → Doc) :
    ∀ (ps : List (ℕ × ℕ)) (h : List Doc) (i a : ℕ),
      (ps.map Prod.snd).Nodup → (i, a) ∈ ps → a < h.length →
      ∃ d0, h.get? a = some d0 ∧ (updFold f h ps).get? a = some (f i d0) := by
  intro ps
  induction ps with
  | nil =>
    intro h i a _ hmem
    exact absurd hmem (List.not_mem_nil _)
  | cons p ps ih =>
    intro h i a hnd hmem ha
    have hnd2 : (ps.map Prod.snd).Nodup := (List.nodup_cons.mp hnd).2
    rcases List.mem_cons.mp hmem with hp | hp
    · -- the write happens at the head step
      subst hp
      obtain ⟨d0, hd0⟩ : ∃ d0, h.get? a = some d0 :=
        ⟨h.get ⟨a, ha⟩, List.get?_eq_get ha⟩
      refine ⟨d0, hd0, ?_⟩
      rw [updFold]
      simp only [hd0]
      have hnot : ∀ q ∈ ps, q.2 ≠ a := by
        intro q hq hqa
        apply (List.nodup_cons.mp hnd).1
        show a ∈ List.map Prod.snd ps
        rw [← hqa]
        exact List.mem_map_of_mem Prod.snd hq
      rw [updFold_frame f ps _ a hnot]
      exact List.get?_set_eq_of_lt _ ha
    · -- the write happens later; the head step leaves `a` untouched
      have hpa : p.2 ≠ a := by
        intro hqa
        apply (List.nodup_cons.mp hnd).1
        rw [hqa]
        exact List.mem_map_of_mem Prod.snd hp
      rw [updFold]
      cases hg : h.get? p.2 with
      | none => exact ih h i a hnd2 hp ha
      | some d =>
        simp only [hg]
        obtain ⟨d0, hd0, hres⟩ := ih (h.set p.2 (f p.1 d)) i a hnd2 hp
          (by rwa [List.length_set])
        refine ⟨d0, ?_, hres⟩
        rwa [List.get?_set_ne _ _ hpa] at hd0

/-- The in-place annotation pass `doc['rerank_score'] = ...;
doc['original_rank'] = idx if absent` (src/day19/reranker.py lines 81-85),
on the heap. -/
def annotOrig (score : String → String → ℚ) (query : String)
    (heap : List Doc) (addrs : List ℕ) : List Doc :=
  updFold (fun i d =>
      { d with
          rerank_score := some (score query (getText d))
          original_rank := match d.original_rank with
            | some r => some r
            | none => some (i : ℤ) })
    heap (List.enumFrom 1 addrs)

/-- The sort key read through an address. -/
def heapKey (h : List Doc) (a : ℕ) : ℚ := ((h.get? a).map rerankKey).getD 0

/-- The in-place rank annotation pass `doc['reranked_rank'] = new_rank;
doc['rank_change'] = doc['original_rank'] - new_rank`
(src/day19/reranker.py lines 91-93), on the heap. -/
def writeRanks (h : List Doc) (sorted : List ℕ) : List Doc :=
  updFold (fun i d =>
      { d with
          reranked_rank := some (i : ℤ)
          rank_change := some (d.original_rank.getD 0 - (i : ℤ)) })
    h (List.enumFrom 1 sorted)

/-- Heap-level `DocumentReranker.rerank`: returns the mutated heap and the
addresses of the returned documents. -/
def rerankRef (score : String → String → ℚ) (query : String)
    (heap : List Doc) (addrs : List ℕ) (top_k : ℕ) : List Doc × List ℕ :=
  if addrs = [] then (heap, [])
  else
    let h1 := annotOrig score query heap addrs
    let sorted := sortD (heapKey h1) addrs
    let h2 := writeRanks h1 sorted
    (h2, sorted.take top_k)

/-- C10: `rerank` mutates its input.  On the heap model, after a call in
which the cross-encoder scoring succeeds, every candidate document (not
only the returned top-k) carries `rerank_score`, `original_rank`,
`reranked_rank` and `rank_change`; the returned list aliases the caller's
elements (every returned address is an input address); documents outside
the candidate list are untouched.  A caller that needs the pre-rerank
candidates unchanged must copy them first, as
`RAGAgent.compare_with_reranking` does. -/
theorem rerankRef_mutates_input (score : String → String → ℚ) (query : String)
    (heap : List Doc) (addrs : List ℕ) (top_k : ℕ)
    (hnd : addrs.Nodup) (hlt : ∀ a ∈ addrs, a < heap.length) :
    ((rerankRef score query heap addrs top_k).1.length = heap.length) ∧
    (∀ a ∈ addrs, ∃ d, (rerankRef score query heap addrs top_k).1.get? a = some d ∧
      d.rerank_score.isSome ∧ d.original_rank.isSome ∧
      d.reranked_rank.isSome ∧ d.rank_change.isSome) ∧
    (∀ a ∈ (rerankRef score query heap addrs top_k).2, a ∈ addrs) ∧
    (∀ a, a ∉ addrs → (rerankRef score query heap addrs top_k).1.get? a = heap.get? a) := by
  by_cases hne : addrs = []
  · subst hne
    refine ⟨by simp [rerankRef], by simp, by simp [rerankRef], by simp [rerankRef]⟩
  · simp only [rerankRef, if_neg hne]
    set h1 := annotOrig score query heap addrs with hh1
    set sorted := sortD (heapKey h1) addrs with hsorted
    have hmemsnd : ∀ {a : ℕ} {l : List ℕ}, a ∈ l → ∃ i, (i, a) ∈ List.enumFrom 1 l := by
      intro a l hal
      have hm : a ∈ List.map Prod.snd (List.enumFrom 1 l) := by
        rw [List.enumFrom_map_snd]; exact hal
      obtain ⟨p, hp, hp2⟩ := List.mem_map.mp hm
      refine ⟨p.1, ?_⟩
      rw [← hp2, Prod.mk.eta]
      exact hp
    have hnd_en_addrs : ((List.enumFrom 1 addrs).map Prod.snd).Nodup := by
      rw [List.enumFrom_map_snd]; exact hnd
    have hlen1 : h1.length = heap.length := updFold_length _ _ _
    have hmem_sorted : ∀ {a : ℕ}, a ∈ sorted ↔ a ∈ addrs :=
      fun {a} => (sortD_perm (heapKey h1) addrs).mem_iff
    have hnd_sorted : sorted.Nodup :=
      ((sortD_perm (heapKey h1) addrs).nodup_iff).mpr hnd
    have hnd_en_sorted : ((List.enumFrom 1 sorted).map Prod.snd).Nodup := by
      rw [List.enumFrom_map_snd]; exact hnd_sorted
    refine ⟨?_, ?_, ?_, ?_⟩
    · show (writeRanks h1 sorted).length = heap.length
      exact (updFold_length _ _ _).trans hlen1
    · intro a ha
      obtain ⟨i, hia⟩ := hmemsnd ha
      obtain ⟨d0, hd0, h1a⟩ :=
        updFold_write (fun i d =>
            { d with
                rerank_score := some (score query (getText d))
                original_rank := match d.original_rank with
                  | some r => some r
                  | none => some (i : ℤ) })
          (List.enumFrom 1 addrs) heap i a hnd_en_addrs hia (hlt a ha)
      have h1a2 : h1.get? a = some { d0 with
          rerank_score := some (score query (getText d0))
          original_rank := match d0.original_rank with
            | some r => some r
            | none => some (i : ℤ) } := h1a
      have ha_sorted : a ∈ sorted := hmem_sorted.mpr ha
      obtain ⟨j, hja⟩ := hmemsnd ha_sorted
      obtain ⟨d1, hd1, h2a⟩ :=
        updFold_write (fun i d =>
            { d with
                reranked_rank := some (i : ℤ)
                rank_change := some (d.original_rank.getD 0 - (i : ℤ)) })
          (List.enumFrom 1 sorted) h1 j a hnd_en_sorted hja
          (by rw [hlen1]; exact hlt a ha)
      have hd1v : d1 = { d0 with
          rerank_score := some (score query (getText d0))
          original_rank := match d0.original_rank with
            | some r => some r
            | none => some (i : ℤ) } := by
        have hcomb := hd1.symm.trans h1a2
        exact Option.some_inj.mp hcomb
      refine ⟨_, h2a, ?_, ?_, ?_, ?_⟩
      · rw [hd1v]
        simp
      · rw [hd1v]
        cases hdo : d0.original_rank <;> simp [hdo]
      · simp
      · simp
    · intro a ha_ret
      exact hmem_sorted.mp (List.mem_of_mem_take ha_ret)
    · intro a hna
      have hfr : ∀ (l : List ℕ), a ∉ l → ∀ p ∈ List.enumFrom 1 l, p.2 ≠ a := by
        intro l hal p hp hpa
        apply hal
        rw [← hpa]
        have hm : p.2 ∈ List.map Prod.snd (List.enumFrom 1 l) :=
          List.mem_map_of_mem _ hp
        rwa [List.enumFrom_map_snd] at hm
      have h1f : h1.get? a = heap.get? a := updFold_frame _ _ _ _ (hfr addrs hna)
      have hna_sorted : a ∉ sorted := fun h => hna (hmem_sorted.mp h)
      have h2f : (writeRanks h1 sorted).get? a = h1.get? a :=
        updFold_frame _ _ _ _ (hfr sorted hna_sorted)
      exact h2f.trans h1f

/-- Witness for `rerankRef_mutates_input`: a two-document heap, both
documents candidates. -/
theorem rerankRef_mutates_input_witness :
    (([0, 1] : List ℕ).Nodup ∧
      (∀ a ∈ ([0, 1] : List ℕ), a < ([docFresh "a", docFresh "b"] : List Doc).length)) ∧
    (((rerankRef (fun _ _ => (0 : ℚ)) "q" [docFresh "a", docFresh "b"] [0, 1] 1).1.length
        = ([docFresh "a", docFresh "b"] : List Doc).length) ∧
      (∀ a ∈ ([0, 1] : List ℕ), ∃ d,
        (rerankRef (fun _ _ => (0 : ℚ)) "q" [docFresh "a", docFresh "b"] [0, 1] 1).1.get? a
          = some d ∧
        d.rerank_score.isSome ∧ d.original_rank.isSome ∧
        d.reranked_rank.isSome ∧ d.rank_change.isSome) ∧
      (∀ a ∈ (rerankRef (fun _ _ => (0 : ℚ)) "q" [docFresh "a", docFresh "b"] [0, 1] 1).2,
        a ∈ ([0, 1] : List ℕ)) ∧
      (∀ a, a ∉ ([0, 1] : List ℕ) →
        (rerankRef (fun _ _ => (0 : ℚ)) "q" [docFresh "a", docFresh "b"] [0, 1] 1).1.get? a
          = ([docFresh "a", docFresh "b"] : List Doc).get? a)) :=
  ⟨⟨by decide, by decide⟩,
    rerankRef_mutates_input (fun _ _ => (0 : ℚ)) "q" [docFresh "a", docFresh "b"] [0, 1] 1
      (by decide) (by decide)⟩

/-! ## VectorStore (src/day19/vector_store.py)

State: the FAISS index contents (`ann`, a list of stored vectors in
insertion order; `ntotal` is its length), the SQLite `documents` table
(`table`, rows in insertion order with AUTOINCREMENT ids from `nextId`),
and the `index_to_id` mapping.  The vector type and the normalization
function are parameters of the add path (`_normalize_vectors` itself is
embedded over `ℝ` further down); chunk ids come from
`_generate_chunk_id`, which hashes the current time, so they enter the
model as an oracle input `chunkIds` (one id per chunk).  The relational
insert raises `sqlite3.IntegrityError` exactly when the chunk id collides
with an existing row (UNIQUE constraint). -/

structure Row where
  id : ℕ
  chunk_id : String
  source_file : String
  file_type : String
  chunk_text : String
  chunk_index : ℤ
  token_count : ℤ
  metadata : String
  created_at : String
deriving Repr, DecidableEq

structure ChunkIn where
  text : String
  source_file : String
  file_type : String
  chunk_index : ℤ
  token_count : ℤ
  metadata : String
deriving Repr, DecidableEq

structure StoreState (Vec : Type) where
  ann : List Vec
  table : List Row
  nextId : ℕ
  index_to_id : List ℕ

def emptyStore (Vec : Type) : StoreState Vec :=
  { ann := [], table := [], nextId := 1, index_to_id := [] }

/-- The row written by the `INSERT INTO documents` statement
(`created_at` defaults to the current timestamp, abstracted away). -/
def mkRow (chunk : ChunkIn) (cid : String) (rid : ℕ) : Row where
  id := rid
  chunk_id := cid
  source_file := chunk.source_file
  file_type := chunk.file_type
  chunk_text := chunk.text
  chunk_index := chunk.chunk_index
  token_count := chunk.token_count
  metadata := chunk.metadata
  created_at := ""

/-- One iteration of the insert loop of `add_documents` (src/day19/
vector_store.py lines 151-181): `INSERT INTO documents ...`, then
`row_id = cursor.lastrowid; self.index_to_id.append(row_id)`.  Returns
the new state and whether the insert succeeded (`False` models the
`except sqlite3.IntegrityError` branch, which skips the chunk). -/
def insertRow {Vec : Type} (chunk : ChunkIn) (cid : String)
    (st : StoreState Vec) : StoreState Vec × Bool :=
  if cid ∈ st.table.map Row.chunk_id then (st, false)
  else
    ({ st with
        table := st.table ++ [mkRow chunk cid st.nextId]
        nextId := st.nextId + 1
        index_to_id := st.index_to_id ++ [st.nextId] }, true)

/-- The `for chunk, embedding in zip(chunks, embeddings)` loop, also
returning the running `added` counter. -/
def insertLoop {Vec : Type} : List (ChunkIn × String) → StoreState Vec →
    StoreState Vec × ℕ
  | [], st => (st, 0)
  | p :: ps, st =>
    let step := insertRow p.1 p.2 st
    let rest := insertLoop ps step.1
    (rest.1, if step.2 then rest.2 + 1 else rest.2)

/-- The method `VectorStore.add_documents` (src/day19/vector_store.py lines
121-190): guard empty inputs and count mismatch (return 0, no side
effects), normalize, add all vectors to the FAISS index, then insert the
rows relationally one by one; `commit` and the FAISS save touch no
modelled state. -/
def add_documents {Vec : Type} (normalizeV : Vec → Vec) (chunks : List ChunkIn)
    (embeddings : List Vec) (chunkIds : List String) (st : StoreState Vec) :
    StoreState Vec × ℕ :=
  if chunks.isEmpty || embeddings.isEmpty then (st, 0)
  else if chunks.length ≠ embeddings.length then (st, 0)
  else
    let vectors := embeddings.map normalizeV
    let st1 := { st with ann := st.ann ++ vectors }
    insertLoop (chunks.zip chunkIds) st1

/-- The critical invariant of §4.3: `len(index_to_id) == ann_index.total_count
== relational_row_count`, and `index_to_id[i]` is the id of the row
inserted together with ANN position `i`. -/
def StoreInv {Vec : Type} (st : StoreState Vec) : Prop :=
  st.index_to_id.length = st.ann.length ∧
  st.ann.length = st.table.length ∧
  ∀ i : ℕ, st.index_to_id.get? i = (st.table.get? i).map Row.id

structure AddCall (Vec : Type) where
  chunks : List ChunkIn
  embeddings : List Vec
  chunkIds : List String

/-- "Every relational insert of the call succeeds": when the call passes
the guards (so inserts are attempted at all), the generated chunk ids are
one per chunk, pairwise distinct, and fresh with respect to the table. -/
def callOk {Vec : Type} (st : StoreState Vec) (c : AddCall Vec) : Prop :=
  ((c.chunks.isEmpty || c.embeddings.isEmpty) = false ∧
      c.chunks.length = c.embeddings.length) →
    (c.chunkIds.length = c.chunks.length ∧ c.chunkIds.Nodup ∧
      ∀ cid ∈ c.chunkIds, cid ∉ st.table.map Row.chunk_id)

def applyCall {Vec : Type} (normalizeV : Vec → Vec) (st : StoreState Vec)
    (c : AddCall Vec) : StoreState Vec :=
  (add_documents normalizeV c.chunks c.embeddings c.chunkIds st).1

def OkRun {Vec : Type} (normalizeV : Vec → Vec) :
    StoreState Vec → List (AddCall Vec) → Prop
  | _, [] => True
  | st, c :: cs => callOk st c ∧ OkRun normalizeV (applyCall normalizeV st c) cs

def runCalls {Vec : Type} (normalizeV : Vec → Vec) :
    StoreState Vec → List (AddCall Vec) → StoreState Vec
  | st, [] => st
  | st, c :: cs => runCalls normalizeV (applyCall normalizeV st c) cs

theorem insertLoop_ok {Vec : Type} :
    ∀ (pairs : List (ChunkIn × String)) (st : StoreState Vec),
      (pairs.map Prod.snd).Nodup →
      (∀ cid ∈ pairs.map Prod.snd, cid ∉ st.table.map Row.chunk_id) →
      ∃ rows : List Row,
        (insertLoop pairs st).1.table = st.table ++ rows ∧
        (insertLoop pairs st).1.index_to_id = st.index_to_id ++ rows.map Row.id ∧
        (insertLoop pairs st).1.ann = st.ann ∧
        rows.length = pairs.length ∧
        (insertLoop pairs st).2 = pairs.length := by
  intro pairs
  induction pairs with
  | nil =>
    intro st _ _
    exact ⟨[], by simp [insertLoop], by simp [insertLoop], by simp [insertLoop], rfl, rfl⟩
  | cons p ps ih =>
    intro st hnd hfresh
    have hfr : p.2 ∉ st.table.map Row.chunk_id := hfresh p.2 (by simp)
    have hstep : insertRow p.1 p.2 st = ({ st with
        table := st.table ++ [mkRow p.1 p.2 st.nextId]
        nextId := st.nextId + 1
        index_to_id := st.index_to_id ++ [st.nextId] }, true) := by
      rw [insertRow, if_neg hfr]
    have hnd2 : (ps.map Prod.snd).Nodup := (List.nodup_cons.mp (by simpa using hnd)).2
    have hfresh2 : ∀ cid ∈ ps.map Prod.snd, cid ∉
        ({ st with
            table := st.table ++ [mkRow p.1 p.2 st.nextId]
            nextId := st.nextId + 1
            index_to_id := st.index_to_id ++ [st.nextId] } : StoreState Vec).table.map
          Row.chunk_id := by
      intro cid hcid
      simp only [List.map_append]
      rw [List.mem_append]
      rintro (hin | hin)
      · exact hfresh cid (by simp [hcid]) hin
      · have hcp : cid = p.2 := by simpa [mkRow] using hin
        exact (List.nodup_cons.mp (by simpa using hnd)).1 (hcp ▸ hcid)
    obtain ⟨rows, h1, h2, h3, h4, h5⟩ := ih _ hnd2 hfresh2
    refine ⟨mkRow p.1 p.2 st.nextId :: rows, ?_, ?_, ?_, ?_, ?_⟩
    · show (insertLoop (p :: ps) st).1.table = _
      rw [insertLoop]
      simp only [hstep]
      rw [h1]
      simp
    · show (insertLoop (p :: ps) st).1.index_to_id = _
      rw [insertLoop]
      simp only [hstep]
      rw [h2]
      simp [mkRow]
    · show (insertLoop (p :: ps) st).1.ann = _
      rw [insertLoop]
      simp only [hstep]
      rw [h3]
    · simp [h4]
    · show (insertLoop (p :: ps) st).2 = _
      rw [insertLoop]
      simp only [hstep]
      simp [h5]

theorem add_documents_preserves_inv {Vec : Type} (normalizeV : Vec → Vec)
    (st : StoreState Vec) (c : AddCall Vec)
    (hinv : StoreInv st) (hok : callOk st c) :
    StoreInv (applyCall normalizeV st c) := by
  obtain ⟨hi1, hi2, hi3⟩ := hinv
  by_cases hg1 : (c.chunks.isEmpty || c.embeddings.isEmpty) = true
  · have hadd : applyCall normalizeV st c = st := by
      unfold applyCall
      rw [add_documents, if_pos hg1]
    rw [hadd]
    exact ⟨hi1, hi2, hi3⟩
  · by_cases hg2 : c.chunks.length = c.embeddings.length
    · have hadd : applyCall normalizeV st c = (insertLoop (c.chunks.zip c.chunkIds)
          { st with ann := st.ann ++ c.embeddings.map normalizeV }).1 := by
        unfold applyCall
        rw [add_documents, if_neg hg1, if_neg (fun h => h hg2)]
      obtain ⟨hlen, hnd, hfresh⟩ := hok ⟨by simpa using hg1, hg2⟩
      have hzip_snd : (c.chunks.zip c.chunkIds).map Prod.snd = c.chunkIds :=
        List.map_snd_zip _ _ (by omega)
      obtain ⟨rows, ht, hm, ha, hrl, _⟩ :=
        insertLoop_ok (c.chunks.zip c.chunkIds)
          { st with ann := st.ann ++ c.embeddings.map normalizeV }
          (by rw [hzip_snd]; exact hnd)
          (by rw [hzip_snd]; exact hfresh)
      have hzl : (c.chunks.zip c.chunkIds).length = c.chunks.length := by
        rw [List.length_zip]
        omega
      rw [hadd]
      have hta : (({ st with ann := st.ann ++ c.embeddings.map normalizeV } :
          StoreState Vec)).table = st.table := rfl
      have hia : (({ st with ann := st.ann ++ c.embeddings.map normalizeV } :
          StoreState Vec)).index_to_id = st.index_to_id := rfl
      rw [hta] at ht
      rw [hia] at hm
      refine ⟨?_, ?_, ?_⟩
      · rw [hm, ha]
        simp only [List.length_append, List.length_map]
        omega
      · rw [ha, ht]
        simp only [List.length_append, List.length_map]
        omega
      · intro i
        rw [hm, ht]
        have hklen : st.index_to_id.length = st.table.length := by omega
        by_cases hil : i < st.index_to_id.length
        · rw [List.get?_append hil, List.get?_append (hklen ▸ hil)]
          exact hi3 i
        · push_neg at hil
          rw [List.get?_append_right hil, List.get?_append_right (hklen ▸ hil),
            List.get?_map, hklen]
    · have hadd : applyCall normalizeV st c = st := by
        unfold applyCall
        rw [add_documents, if_neg hg1, if_pos hg2]
      rw [hadd]
      exact ⟨hi1, hi2, hi3⟩

theorem runCalls_inv {Vec : Type} (normalizeV : Vec → Vec) :
    ∀ (calls : List (AddCall Vec)) (st : StoreState Vec),
      StoreInv st → OkRun normalizeV st calls →
      StoreInv (runCalls normalizeV st calls) := by
  intro calls
  induction calls with
  | nil =>
    intro st hinv _
    exact hinv
  | cons c cs ih =>
    intro st hinv hok
    exact ih _ (add_documents_preserves_inv normalizeV st c hinv hok.1) hok.2

/-- C1: starting from an empty store, after any sequence of `add()` calls
(no deletes) in which every attempted relational insert succeeds, the
`index_to_id` mapping, the ANN index and the `documents` table have the
same length, and `index_to_id[i]` is the id of the row inserted together
with ANN position `i`. -/
theorem vector_store_index_row_consistency {Vec : Type} (normalizeV : Vec → Vec)
    (calls : List (AddCall Vec))
    (hok : OkRun normalizeV (emptyStore Vec) calls) :
    (runCalls normalizeV (emptyStore Vec) calls).index_to_id.length
        = (runCalls normalizeV (emptyStore Vec) calls).ann.length ∧
    (runCalls normalizeV (emptyStore Vec) calls).ann.length
        = (runCalls normalizeV (emptyStore Vec) calls).table.length ∧
    ∀ i : ℕ, (runCalls normalizeV (emptyStore Vec) calls).index_to_id.get? i
        = ((runCalls normalizeV (emptyStore Vec) calls).table.get? i).map Row.id :=
  runCalls_inv normalizeV calls (emptyStore Vec) ⟨rfl, rfl, by simp [emptyStore]⟩ hok

/-- A sample chunk payload. -/
def sampleChunk (t : String) : ChunkIn where
  text := t
  source_file := "f.md"
  file_type := "text"
  chunk_index := 0
  token_count := 3
  metadata := ""

def sampleCallA : AddCall (List ℚ) :=
  { chunks := [sampleChunk "t1"], embeddings := [[1, 0]], chunkIds := ["cid1"] }

def sampleCallB : AddCall (List ℚ) :=
  { chunks := [sampleChunk "t2", sampleChunk "t3"],
    embeddings := [[0, 1], [1, 1]], chunkIds := ["cid2", "cid3"] }

/-- Witness for `vector_store_index_row_consistency`: two successive
`add()` calls with fresh chunk ids. -/
theorem vector_store_index_row_consistency_witness :
    OkRun (fun v : List ℚ => v) (emptyStore (List ℚ)) [sampleCallA, sampleCallB] ∧
    ((runCalls (fun v : List ℚ => v) (emptyStore (List ℚ))
        [sampleCallA, sampleCallB]).index_to_id.length
      = (runCalls (fun v : List ℚ => v) (emptyStore (List ℚ))
        [sampleCallA, sampleCallB]).ann.length ∧
    (runCalls (fun v : List ℚ => v) (emptyStore (List ℚ))
        [sampleCallA, sampleCallB]).ann.length
      = (runCalls (fun v : List ℚ => v) (emptyStore (List ℚ))
        [sampleCallA, sampleCallB]).table.length ∧
    ∀ i : ℕ, (runCalls (fun v : List ℚ => v) (emptyStore (List ℚ))
        [sampleCallA, sampleCallB]).index_to_id.get? i
      = ((runCalls (fun v : List ℚ => v) (emptyStore (List ℚ))
        [sampleCallA, sampleCallB]).table.get? i).map Row.id) :=
  have hok : OkRun (fun v : List ℚ => v) (emptyStore (List ℚ))
      [sampleCallA, sampleCallB] :=
    ⟨fun _ => ⟨by decide, by decide, by decide⟩,
      fun _ => ⟨by decide, by decide, by decide⟩, trivial⟩
  ⟨hok, vector_store_index_row_consistency (fun v : List ℚ => v)
    [sampleCallA, sampleCallB] hok⟩

/-! ### Event trace of `add_documents` (ordering of its steps)

The observable steps of one `add_documents` call, in program order:
the bulk FAISS `index.add(vectors)` (line 145), each relational insert
with the row id it obtains (lines 159-174), each `index_to_id.append`
(line 175), the `IntegrityError` skip (line 178), `conn.commit()`
(line 183) and `_save_faiss_index()` (line 186). -/

inductive AddEv where
  | annAdd (count : ℕ)
  | relInsert (chunkIdx : ℕ) (rowId : ℕ)
  | mapAppend (rowId : ℕ)
  | integrityError (chunkIdx : ℕ)
  | commit
  | saveIndex
deriving Repr, DecidableEq

def insertLoopTrace {Vec : Type} : List (ChunkIn × String) → StoreState Vec → ℕ →
    List AddEv
  | [], _, _ => []
  | p :: ps, st, idx =>
    let step := insertRow p.1 p.2 st
    (if step.2 then [AddEv.relInsert idx st.nextId, AddEv.mapAppend st.nextId]
     else [AddEv.integrityError idx]) ++ insertLoopTrace ps step.1 (idx + 1)

/-- The event trace of `VectorStore.add_documents`, in the order the code
performs the steps. -/
def add_documents_trace {Vec : Type} (normalizeV : Vec → Vec)
    (chunks : List ChunkIn) (embeddings : List Vec) (chunkIds : List String)
    (st : StoreState Vec) : List AddEv :=
  if chunks.isEmpty || embeddings.isEmpty then []
  else if chunks.length ≠ embeddings.length then []
  else
    let vectors := embeddings.map normalizeV
    AddEv.annAdd vectors.length ::
      (insertLoopTrace (chunks.zip chunkIds) { st with ann := st.ann ++ vectors } 0
        ++ [AddEv.commit, AddEv.saveIndex])

/-- C2: on a one-chunk call that passes the count-match precondition, the
code adds the vector to the ANN index **before** the relational insert
(the spec requires the reverse order); the `index_to_id` append follows
the insert, and the ANN index is persisted only after the commit. -/
theorem add_documents_ann_add_precedes_relational_insert :
    add_documents_trace (fun v : List ℚ => v) [sampleChunk "t1"] [[1, 0]] ["cid1"]
        (emptyStore (List ℚ))
      = [AddEv.annAdd 1, AddEv.relInsert 0 1, AddEv.mapAppend 1,
         AddEv.commit, AddEv.saveIndex] ∧
    (List.indexOf (AddEv.annAdd 1)
        (add_documents_trace (fun v : List ℚ => v) [sampleChunk "t1"] [[1, 0]] ["cid1"]
          (emptyStore (List ℚ)))
      < List.indexOf (AddEv.relInsert 0 1)
        (add_documents_trace (fun v : List ℚ => v) [sampleChunk "t1"] [[1, 0]] ["cid1"]
          (emptyStore (List ℚ)))) ∧
    (List.indexOf AddEv.commit
        (add_documents_trace (fun v : List ℚ => v) [sampleChunk "t1"] [[1, 0]] ["cid1"]
          (emptyStore (List ℚ)))
      < List.indexOf AddEv.saveIndex
        (add_documents_trace (fun v : List ℚ => v) [sampleChunk "t1"] [[1, 0]] ["cid1"]
          (emptyStore (List ℚ)))) :=
  ⟨by decide, by decide, by decide⟩

/-! ### `VectorStore.search` (src/day19/vector_store.py lines 192-288)

The FAISS `IndexFlatIP.search` is exact inner-product search: it returns
the top-`k` stored vectors by inner product with the query, in
non-increasing score order (ties by insertion order).  Stored vectors are
rationals here; the query is normalized through the same parameter
function as the add path.  The candidate-processing loop is embedded
as `searchLoop`, one case per `continue`/`break` of the source. -/

def dot (u v : List ℚ) : ℚ := (List.zipWith (· * ·) u v).sum

/-- Exact inner-product search of `faiss.IndexFlatIP`: scores every
stored vector, orders by non-increasing inner product (stable, so ties
keep insertion order) and returns the first `k` of `(score, ordinal)`. -/
def faissSearch (ann : List (List ℚ)) (q : List ℚ) (k : ℕ) : List (ℚ × ℤ) :=
  (sortD Prod.fst (ann.enum.map (fun p => (dot q p.2, (p.1 : ℤ))))).take k

structure SearchResult where
  chunk_id : String
  source_file : String
  file_type : String
  text : String
  chunk_index : ℤ
  token_count : ℤ
  metadata : String
  similarity : ℚ
  created_at : String
deriving Repr, DecidableEq

def mkResult (row : Row) (similarity : ℚ) : SearchResult where
  chunk_id := row.chunk_id
  source_file := row.source_file
  file_type := row.file_type
  text := row.chunk_text
  chunk_index := row.chunk_index
  token_count := row.token_count
  metadata := row.metadata
  similarity := similarity
  created_at := row.created_at

/-- Python list indexing `l[i]`, including negative indices. -/
def pyIndex {α : Type} (l : List α) (i : ℤ) : Option α :=
  if 0 ≤ i then l.get? i.toNat
  else if (-i).toNat ≤ l.length then l.get? (l.length - (-i).toNat)
  else none

/-- The query `SELECT ... FROM documents WHERE id = ?` followed by `fetchone()`. -/
def lookupRow (table : List Row) (rid : ℕ) : Option Row :=
  (table.filter (fun r => r.id == rid)).head?

/-- The filter `if file_type and row[2] != file_type: continue`
(`file_type` is falsy when `None` or the empty string). -/
def ftMismatch (fileType : Option String) (row : Row) : Bool :=
  match fileType with
  | some ft => !(ft == "") && !(row.file_type == ft)
  | none => false

/-- The `for distance, idx in zip(distances[0], indices[0])` loop of
`search`, with its `continue` cases (sentinel `-1`, similarity below
threshold, ordinal out of range for `index_to_id`, missing row, file-type
mismatch) and the `break` once `top_k` results are collected. -/
def searchLoop (st : StoreState (List ℚ)) (minSim : ℚ) (fileType : Option String)
    (topK : ℕ) : List (ℚ × ℤ) → List SearchResult → List SearchResult
  | [], results => results
  | (distance, idx) :: rest, results =>
    if idx = -1 then searchLoop st minSim fileType topK rest results
    else
      let similarity := distance
      if similarity < minSim then searchLoop st minSim fileType topK rest results
      else if (st.index_to_id.length : ℤ) ≤ idx then
        searchLoop st minSim fileType topK rest results
      else
        match pyIndex st.index_to_id idx with
        | none => searchLoop st minSim fileType topK rest results
        | some row_id =>
          match lookupRow st.table row_id with
          | none => searchLoop st minSim fileType topK rest results
          | some row =>
            if ftMismatch fileType row then
              searchLoop st minSim fileType topK rest results
            else
              let results2 := results ++ [mkResult row similarity]
              if topK ≤ results2.length then results2
              else searchLoop st minSim fileType topK rest results2

/-- The method `VectorStore.search`: empty-index guard, query normalization, FAISS
query for `min(top_k * 2, ntotal)` candidates, then the processing
loop. -/
def search (st : StoreState (List ℚ)) (normalizeQ : List ℚ → List ℚ)
    (query_embedding : List ℚ) (topK : ℕ) (minSim : ℚ)
    (fileType : Option String) : List SearchResult :=
  if st.ann.length = 0 then []
  else
    let query_vector := normalizeQ query_embedding
    searchLoop st minSim fileType topK
      (faissSearch st.ann query_vector (min (topK * 2) st.ann.length)) []

theorem searchLoop_length_le (st : StoreState (List ℚ)) (minSim : ℚ)
    (fileType : Option String) (topK : ℕ) :
    ∀ (cands : List (ℚ × ℤ)) (acc : List SearchResult), acc.length < topK →
      (searchLoop st minSim fileType topK cands acc).length ≤ topK := by
  intro cands
  induction cands with
  | nil =>
    intro acc hacc
    exact le_of_lt hacc
  | cons c rest ih =>
    intro acc hacc
    obtain ⟨d, idx⟩ := c
    rw [searchLoop]
    dsimp only
    split
    · exact ih acc hacc
    · split
      · exact ih acc hacc
      · split
        · exact ih acc hacc
        · split
          · exact ih acc hacc
          · split
            · exact ih acc hacc
            · split
              · exact ih acc hacc
              · split
                · simp only [List.length_append, List.length_cons, List.length_nil]
                  omega
                · rename_i hstop
                  exact ih _ (by simp at hstop ⊢; omega)

theorem searchLoop_results_prop (st : StoreState (List ℚ)) (minSim : ℚ)
    (fileType : Option String) (topK : ℕ) (P : SearchResult → Prop)
    (hnew : ∀ row d, minSim ≤ d → ¬ (ftMismatch fileType row = true) →
      P (mkResult row d)) :
    ∀ (cands : List (ℚ × ℤ)) (acc : List SearchResult), (∀ r ∈ acc, P r) →
      ∀ r ∈ searchLoop st minSim fileType topK cands acc, P r := by
  intro cands
  induction cands with
  | nil =>
    intro acc hacc
    exact hacc
  | cons c rest ih =>
    intro acc hacc
    obtain ⟨d, idx⟩ := c
    rw [searchLoop]
    dsimp only
    by_cases h1 : idx = -1
    · rw [if_pos h1]
      exact ih acc hacc
    · rw [if_neg h1]
      by_cases h2 : d < minSim
      · rw [if_pos h2]
        exact ih acc hacc
      · rw [if_neg h2]
        by_cases h3 : (st.index_to_id.length : ℤ) ≤ idx
        · rw [if_pos h3]
          exact ih acc hacc
        · rw [if_neg h3]
          rcases hpy : pyIndex st.index_to_id idx with _ | row_id
          · exact ih acc hacc
          · dsimp only
            rcases hlook : lookupRow st.table row_id with _ | row
            · exact ih acc hacc
            · dsimp only
              by_cases h4 : ftMismatch fileType row = true
              · rw [if_pos h4]
                exact ih acc hacc
              · rw [if_neg h4]
                have hPr : P (mkResult row d) := hnew row d (le_of_not_lt h2) h4
                have hacc2 : ∀ r ∈ acc ++ [mkResult row d], P r := by
                  intro r hr
                  rcases List.mem_append.mp hr with h | h
                  · exact hacc r h
                  · rw [List.mem_singleton.mp h]
                    exact hPr
                by_cases h5 : topK ≤ (acc ++ [mkResult row d]).length
                · rw [if_pos h5]
                  exact hacc2
                · rw [if_neg h5]
                  exact ih _ hacc2

theorem searchLoop_sorted (st : StoreState (List ℚ)) (minSim : ℚ)
    (fileType : Option String) (topK : ℕ) :
    ∀ (cands : List (ℚ × ℤ)) (acc : List SearchResult),
      cands.Pairwise (fun p q => q.1 ≤ p.1) →
      acc.Pairwise (fun a b => b.similarity ≤ a.similarity) →
      (∀ r ∈ acc, ∀ p ∈ cands, p.1 ≤ r.similarity) →
      (searchLoop st minSim fileType topK cands acc).Pairwise
        (fun a b => b.similarity ≤ a.similarity) := by
  intro cands
  induction cands with
  | nil =>
    intro acc _ haccpw _
    exact haccpw
  | cons c rest ih =>
    intro acc hcpw haccpw hinv
    obtain ⟨d, idx⟩ := c
    have hcpw2 : rest.Pairwise (fun p q => q.1 ≤ p.1) := List.Pairwise.of_cons hcpw
    have hinv2 : ∀ r ∈ acc, ∀ p ∈ rest, p.1 ≤ r.similarity :=
      fun r hr p hp => hinv r hr p (List.mem_cons_of_mem _ hp)
    rw [searchLoop]
    dsimp only
    by_cases h1 : idx = -1
    · rw [if_pos h1]
      exact ih acc hcpw2 haccpw hinv2
    · rw [if_neg h1]
      by_cases h2 : d < minSim
      · rw [if_pos h2]
        exact ih acc hcpw2 haccpw hinv2
      · rw [if_neg h2]
        by_cases h3 : (st.index_to_id.length : ℤ) ≤ idx
        · rw [if_pos h3]
          exact ih acc hcpw2 haccpw hinv2
        · rw [if_neg h3]
          rcases hpy : pyIndex st.index_to_id idx with _ | row_id
          · exact ih acc hcpw2 haccpw hinv2
          · dsimp only
            rcases hlook : lookupRow st.table row_id with _ | row
            · exact ih acc hcpw2 haccpw hinv2
            · dsimp only
              by_cases h4 : ftMismatch fileType row = true
              · rw [if_pos h4]
                exact ih acc hcpw2 haccpw hinv2
              · rw [if_neg h4]
                have hpw2 : (acc ++ [mkResult row d]).Pairwise
                    (fun a b => b.similarity ≤ a.similarity) := by
                  rw [List.pairwise_append]
                  refine ⟨haccpw, List.pairwise_singleton _ _, ?_⟩
                  intro a ha b hb
                  rw [List.mem_singleton.mp hb]
                  exact hinv a ha (d, idx) (List.mem_cons_self _ _)
                have hinv3 : ∀ r ∈ acc ++ [mkResult row d], ∀ p ∈ rest,
                    p.1 ≤ r.similarity := by
                  intro r hr p hp
                  rcases List.mem_append.mp hr with h | h
                  · exact hinv2 r h p hp
                  · rw [List.mem_singleton.mp h]
                    exact List.rel_of_pairwise_cons hcpw hp
                by_cases h5 : topK ≤ (acc ++ [mkResult row d]).length
                · rw [if_pos h5]
                  exact hpw2
                · rw [if_neg h5]
                  exact ih _ hcpw2 hpw2 hinv3

theorem searchLoop_skips_sentinel (st : StoreState (List ℚ)) (minSim : ℚ)
    (fileType : Option String) (topK : ℕ) :
    ∀ (cands : List (ℚ × ℤ)) (acc : List SearchResult),
      searchLoop st minSim fileType topK cands acc
        = searchLoop st minSim fileType topK
            (cands.filter (fun p => p.2 != -1)) acc := by
  intro cands
  induction cands with
  | nil =>
    intro acc
    rfl
  | cons c rest ih =>
    intro acc
    obtain ⟨d, idx⟩ := c
    by_cases h1 : idx = -1
    · subst h1
      rw [searchLoop]
      dsimp only
      rw [if_pos rfl, List.filter_cons]
      simp only [show ((-1 : ℤ) != -1) = false from by decide, Bool.false_eq_true,
        if_false]
      exact ih acc
    · rw [searchLoop, List.filter_cons]
      dsimp only
      simp only [show ((d, idx).2 != -1) = true from by
        simpa using h1, if_true]
      rw [searchLoop]
      dsimp only
      rw [if_neg h1, if_neg h1]
      by_cases h2 : d < minSim
      · rw [if_pos h2, if_pos h2]
        exact ih acc
      · rw [if_neg h2, if_neg h2]
        by_cases h3 : (st.index_to_id.length : ℤ) ≤ idx
        · rw [if_pos h3, if_pos h3]
          exact ih acc
        · rw [if_neg h3, if_neg h3]
          rcases hpy : pyIndex st.index_to_id idx with _ | row_id
          · exact ih acc
          · dsimp only
            rcases hlook : lookupRow st.table row_id with _ | row
            · exact ih acc
            · dsimp only
              by_cases h4 : ftMismatch fileType row = true
              · rw [if_pos h4, if_pos h4]
                exact ih acc
              · rw [if_neg h4, if_neg h4]
                by_cases h5 : topK ≤ (acc ++ [mkResult row d]).length
                · rw [if_pos h5, if_pos h5]
                · rw [if_neg h5, if_neg h5]
                  exact ih _

/-- C4: `search` returns at most `top_k` results in non-increasing
similarity order, each above `min_similarity` and matching the file-type
filter when one is supplied; the ANN index is queried for exactly
`min(top_k * 2, index_size)` candidates; and the FAISS no-match sentinel
`-1` is skipped, never turned into a result. -/
theorem search_spec (st : StoreState (List ℚ)) (normalizeQ : List ℚ → List ℚ)
    (q : List ℚ) (topK : ℕ) (minSim : ℚ) (fileType : Option String)
    (htk : 1 ≤ topK) :
    (search st normalizeQ q topK minSim fileType).length ≤ topK ∧
    (∀ r ∈ search st normalizeQ q topK minSim fileType, minSim ≤ r.similarity) ∧
    (∀ ftv, fileType = some ftv → ftv ≠ "" →
      ∀ r ∈ search st normalizeQ q topK minSim fileType, r.file_type = ftv) ∧
    (search st normalizeQ q topK minSim fileType).Pairwise
      (fun a b => b.similarity ≤ a.similarity) ∧
    (0 < st.ann.length →
      (faissSearch st.ann (normalizeQ q) (min (topK * 2) st.ann.length)).length
        = min (topK * 2) st.ann.length) ∧
    (∀ (cands : List (ℚ × ℤ)) (acc : List SearchResult),
      searchLoop st minSim fileType topK cands acc
        = searchLoop st minSim fileType topK
            (cands.filter (fun p => p.2 != -1)) acc) := by
  have hfaiss_len : 0 < st.ann.length →
      (faissSearch st.ann (normalizeQ q) (min (topK * 2) st.ann.length)).length
        = min (topK * 2) st.ann.length := by
    intro _
    rw [faissSearch, List.length_take, sortD_length, List.length_map,
      List.enum_length]
    omega
  by_cases hz : st.ann.length = 0
  · have hs : search st normalizeQ q topK minSim fileType = [] := by
      rw [search, if_pos hz]
    rw [hs]
    exact ⟨by simp, by simp, by simp, by simp, hfaiss_len,
      searchLoop_skips_sentinel st minSim fileType topK⟩
  · have hs : search st normalizeQ q topK minSim fileType
        = searchLoop st minSim fileType topK
            (faissSearch st.ann (normalizeQ q) (min (topK * 2) st.ann.length)) [] := by
      rw [search, if_neg hz]
    rw [hs]
    refine ⟨?_, ?_, ?_, ?_, hfaiss_len,
      searchLoop_skips_sentinel st minSim fileType topK⟩
    · exact searchLoop_length_le st minSim fileType topK _ []
        (by simp only [List.length_nil]; omega)
    · refine searchLoop_results_prop st minSim fileType topK
        (fun r => minSim ≤ r.similarity) ?_ _ [] (by simp)
      intro row d hd _
      exact hd
    · intro ftv hftv hne
      refine searchLoop_results_prop st minSim fileType topK
        (fun r => r.file_type = ftv) ?_ _ [] (by simp)
      intro row d _ h4
      subst hftv
      simp only [ftMismatch, Bool.and_eq_true, Bool.not_eq_true', beq_eq_false_iff_ne,
        ne_eq, not_and, not_not] at h4
      exact h4 hne
    · refine searchLoop_sorted st minSim fileType topK _ [] ?_ (by simp) (by simp)
      exact List.Pairwise.sublist (List.take_sublist _ _)
        (sortD_pairwise Prod.fst _)

/-- A two-vector sample store with consistent table and mapping. -/
def sampleStore : StoreState (List ℚ) where
  ann := [[1, 0], [0, 1]]
  table := [mkRow (sampleChunk "t1") "cid1" 1, mkRow (sampleChunk "t2") "cid2" 2]
  nextId := 3
  index_to_id := [1, 2]

/-- Witness for `search_spec` on the sample store. -/
theorem search_spec_witness :
    1 ≤ 1 ∧
    ((search sampleStore (fun v => v) [1, 0] 1 0 none).length ≤ 1 ∧
    (∀ r ∈ search sampleStore (fun v => v) [1, 0] 1 0 none, (0 : ℚ) ≤ r.similarity) ∧
    (∀ ftv, (none : Option String) = some ftv → ftv ≠ "" →
      ∀ r ∈ search sampleStore (fun v => v) [1, 0] 1 0 none, r.file_type = ftv) ∧
    (search sampleStore (fun v => v) [1, 0] 1 0 none).Pairwise
      (fun a b => b.similarity ≤ a.similarity) ∧
    (0 < sampleStore.ann.length →
      (faissSearch sampleStore.ann ((fun v => v) [1, 0])
          (min (1 * 2) sampleStore.ann.length)).length
        = min (1 * 2) sampleStore.ann.length) ∧
    (∀ (cands : List (ℚ × ℤ)) (acc : List SearchResult),
      searchLoop sampleStore 0 none 1 cands acc
        = searchLoop sampleStore 0 none 1
            (cands.filter (fun p => p.2 != -1)) acc)) :=
  ⟨le_rfl, search_spec sampleStore (fun v => v) [1, 0] 1 0 none le_rfl⟩

/-! ### `VectorStore._normalize_vectors` (src/day19/vector_store.py
lines 106-111)

`norms = np.linalg.norm(vectors, axis=1, keepdims=True)` is the row-wise
L2 norm; `norms[norms == 0] = 1` replaces a zero divisor by one; the
division is row-wise.  Embedded over `ℝ` (the float model), row by
row. -/

def sumSq (v : List ℝ) : ℝ := (v.map (fun x => x ^ 2)).sum

noncomputable def l2norm (v : List ℝ) : ℝ := Real.sqrt (sumSq v)

/-- One row of `_normalize_vectors`: divide by the L2 norm, with a zero
norm replaced by `1`. -/
noncomputable def normalizeRow (v : List ℝ) : List ℝ :=
  let n := l2norm v
  let n2 := if n = 0 then 1 else n
  v.map (fun x => x / n2)

noncomputable def normalize_vectors (vs : List (List ℝ)) : List (List ℝ) :=
  vs.map normalizeRow

theorem sumSq_nonneg (v : List ℝ) : 0 ≤ sumSq v := by
  refine List.sum_nonneg ?_
  intro x hx
  obtain ⟨y, _, rfl⟩ := List.mem_map.mp hx
  positivity

theorem sumSq_map_div (v : List ℝ) (c : ℝ) (hc : c ≠ 0) :
    sumSq (v.map (fun x => x / c)) = sumSq v / c ^ 2 := by
  induction v with
  | nil => simp [sumSq]
  | cons x xs ih =>
    simp only [sumSq, List.map_cons, List.sum_cons] at ih ⊢
    rw [ih]
    field_simp

theorem insertLoop_ann {Vec : Type} :
    ∀ (pairs : List (ChunkIn × String)) (st : StoreState Vec),
      (insertLoop pairs st).1.ann = st.ann := by
  intro pairs
  induction pairs with
  | nil => intro st; rfl
  | cons p ps ih =>
    intro st
    rw [insertLoop]
    dsimp only
    rw [ih]
    unfold insertRow
    by_cases h : p.2 ∈ st.table.map Row.chunk_id
    · rw [if_pos h]
    · rw [if_neg h]

/-- C6 (amended: nonzero vectors are stored unit-norm; the zero vector's
norm is replaced by `1` as divisor, so it is stored unchanged — with norm
`0`, not `1` — rather than crashing): normalization is total, every
nonzero embedding normalizes to L2 norm `1`, the zero vector maps to
itself, and `add()` stores exactly the normalized embeddings in the ANN
index. -/
theorem normalize_vectors_policy (v : List ℝ) :
    (l2norm v ≠ 0 → l2norm (normalizeRow v) = 1) ∧
    (l2norm v = 0 → normalizeRow v = v) ∧
    (∀ (st : StoreState (List ℝ)) (chunks : List ChunkIn) (embs : List (List ℝ))
        (ids : List String),
      (chunks.isEmpty || embs.isEmpty) = false → chunks.length = embs.length →
      (add_documents normalizeRow chunks embs ids st).1.ann
        = st.ann ++ embs.map normalizeRow) := by
  refine ⟨?_, ?_, ?_⟩
  · intro hn
    have hnn := sumSq_nonneg v
    have hsq : l2norm v ^ 2 = sumSq v := Real.sq_sqrt hnn
    unfold normalizeRow
    dsimp only
    rw [if_neg hn]
    rw [l2norm, sumSq_map_div v _ hn, ← hsq,
      div_self (pow_ne_zero 2 hn), Real.sqrt_one]
  · intro hz
    unfold normalizeRow
    dsimp only
    rw [if_pos hz]
    simp
  · intro st chunks embs ids hne hlen
    rw [add_documents, if_neg (by rw [hne]; simp), if_neg (fun h => h hlen)]
    dsimp only
    rw [insertLoop_ann]

/-- Witness for `normalize_vectors_policy` at the vector `[3, 4]`. -/
theorem normalize_vectors_policy_witness :
    l2norm [(3 : ℝ), 4] ≠ 0 ∧ l2norm (normalizeRow [(3 : ℝ), 4]) = 1 := by
  have h25 : sumSq [(3 : ℝ), 4] = 25 := by
    norm_num [sumSq]
  have h5 : l2norm [(3 : ℝ), 4] = 5 := by
    rw [l2norm, h25, show (25 : ℝ) = 5 ^ 2 from by norm_num,
      Real.sqrt_sq (by norm_num)]
  have hne : l2norm [(3 : ℝ), 4] ≠ 0 := by
    rw [h5]
    norm_num
  exact ⟨hne, (normalize_vectors_policy [(3 : ℝ), 4]).1 hne⟩

/-- C6 counterexample to the claim as stated: the zero vector is stored
with L2 norm `0`, not norm `1` — the substitution `norms[norms == 0] = 1`
only fixes the divisor, so `normalize([0,0]) = [0,0]`. -/
theorem normalize_zero_vector_counterexample :
    normalizeRow [(0 : ℝ), 0] = [0, 0] ∧
    l2norm (normalizeRow [(0 : ℝ), 0]) = 0 ∧ (0 : ℝ) ≠ 1 := by
  have hz : l2norm [(0 : ℝ), 0] = 0 := by
    rw [l2norm]
    simp [sumSq]
  have h1 : normalizeRow [(0 : ℝ), 0] = [0, 0] := by
    unfold normalizeRow
    dsimp only
    rw [if_pos hz]
    simp
  refine ⟨h1, ?_, by norm_num⟩
  rw [h1]
  exact hz

end RagPipeline
